import Mathlib

/-!
# CascadeQ — shallow embedding and verification

This file embeds the CascadeQ multi-priority task scheduler
(`src/cascade-q.ts`, `src/priority-queue.ts`, `src/default.ts`,
`src/types.ts`) in Lean 4 and settles the specification claims
against it.

Modelling conventions:
* JS numbers that carry priorities, decay rates and quota shares are
  modelled as rationals (`ℚ`); all concrete inputs used below are exact
  in binary floating point, so `ℚ` arithmetic agrees with the source.
* Timestamps are natural numbers (milliseconds); `Date.now()` becomes an
  explicit `now : ℕ` argument threaded to every operation that reads the
  clock.
* The binary min-heap of `priority-queue.ts` is embedded verbatim over
  `List Task` (push/pop on the end of the list, index swaps for
  `bubbleUp`/`sinkDown`).
* Loops of the scheduler that can in principle run forever
  (`#adjustPriorities`) are embedded with an explicit fuel parameter
  returning `Option`; `none` means the loop has not terminated within
  the given fuel.  Event emission is modelled as an append-only log.
-/

namespace CascadeQ

/-- Task status constants from `types.ts` (`TaskStatus`). -/
inductive TaskStatus where
  | pending
  | running
  | success
  | failed
  | cancelled
deriving DecidableEq, Repr

/-- A queued task item (`TaskItem` of `types.ts`): the callable body and
the shared promise are external collaborators and are not part of the
state; the mutable `status` field lives in a separate status map keyed
by `id`. -/
structure Task where
  id : ℕ
  basePriority : ℚ
  addedAt : ℕ
deriving DecidableEq, Repr

instance : Inhabited Task := ⟨⟨0, 0, 0⟩⟩

/-! ## Binary heap (`priority-queue.ts`)

The heap is a JS array; we embed it as a `List Task` with index `0` the
root.  The comparator is a parameter, as in the source. -/

/-- The destructuring swap `[h[p], h[i]] = [h[i], h[p]]`. -/
def lswap (l : List Task) (i j : ℕ) : List Task :=
  (l.set i (l.getD j default)).set j (l.getD i default)

theorem lswap_length (l : List Task) (i j : ℕ) : (lswap l i j).length = l.length := by
  simp [lswap]

/-- `#bubbleUp` of `priority-queue.ts`: move the element at `index` up
while it compares strictly below its parent. -/
def bubbleUp (cmp : Task → Task → ℚ) : List Task → ℕ → List Task
  | l, 0 => l
  | l, (i + 1) =>
    if 0 ≤ cmp (l.getD (i + 1) default) (l.getD ((i + 1 - 1) / 2) default) then l
    else bubbleUp cmp (lswap l (i + 1) ((i + 1 - 1) / 2)) ((i + 1 - 1) / 2)
termination_by l i => i
decreasing_by
  omega

/-- The index of the smallest of `l[i]` and its in-bounds children, as
computed by the body of `#sinkDown` of `priority-queue.ts`. -/
def childLeft (cmp : Task → Task → ℚ) (l : List Task) (i : ℕ) : ℕ :=
  if 2 * i + 1 < l.length ∧ cmp (l.getD (2 * i + 1) default) (l.getD i default) < 0 then
    2 * i + 1
  else i

def childMin (cmp : Task → Task → ℚ) (l : List Task) (i : ℕ) : ℕ :=
  if 2 * i + 2 < l.length ∧
      cmp (l.getD (2 * i + 2) default) (l.getD (childLeft cmp l i) default) < 0 then
    2 * i + 2
  else childLeft cmp l i

theorem childMin_spec (cmp : Task → Task → ℚ) (l : List Task) (i : ℕ)
    (h : childMin cmp l i ≠ i) : i < childMin cmp l i ∧ childMin cmp l i < l.length := by
  unfold childMin childLeft at h ⊢
  split_ifs at h ⊢ with h1 h2 h2 <;> omega

/-- The `while (true)` loop of `#sinkDown`, with an explicit iteration
budget.  Since the index strictly increases and is bounded by the
length, `l.length` iterations always suffice (`sinkDownLoop_fuel`
below), so the wrapper `sinkDown` agrees with the source loop. -/
def sinkDownLoop (cmp : Task → Task → ℚ) : ℕ → List Task → ℕ → List Task
  | 0, l, _ => l
  | (fuel + 1), l, i =>
    if childMin cmp l i = i then l
    else sinkDownLoop cmp fuel (lswap l i (childMin cmp l i)) (childMin cmp l i)

/-- `#sinkDown` of `priority-queue.ts`: move the element at `index` down
to the smaller child while order is violated. -/
def sinkDown (cmp : Task → Task → ℚ) (l : List Task) (i : ℕ) : List Task :=
  sinkDownLoop cmp l.length l i

/-- `l.length` iterations are always enough for the `#sinkDown` loop:
more fuel never changes the result, so the budget in `sinkDown` is not
an approximation. -/
theorem sinkDownLoop_fuel (cmp : Task → Task → ℚ) :
    ∀ (fuel : ℕ) (l : List Task) (i : ℕ), l.length - i ≤ fuel →
      sinkDownLoop cmp (fuel + 1) l i = sinkDownLoop cmp fuel l i := by
  intro fuel
  induction fuel with
  | zero =>
    intro l i hf
    have hstop : childMin cmp l i = i := by
      by_contra hne
      have := childMin_spec cmp l i hne
      omega
    simp [sinkDownLoop, hstop]
  | succ g ih =>
    intro l i hf
    by_cases hstop : childMin cmp l i = i
    · simp [sinkDownLoop, hstop]
    · have hspec := childMin_spec cmp l i hstop
      have h1 : sinkDownLoop cmp (g + 1 + 1) l i
          = sinkDownLoop cmp (g + 1) (lswap l i (childMin cmp l i)) (childMin cmp l i) := by
        rw [sinkDownLoop]
        simp [hstop]
      have h2 : sinkDownLoop cmp (g + 1) l i
          = sinkDownLoop cmp g (lswap l i (childMin cmp l i)) (childMin cmp l i) := by
        rw [sinkDownLoop]
        simp [hstop]
      rw [h1, h2]
      apply ih
      rw [lswap_length]
      omega

/-- `enqueue` of `priority-queue.ts`: push then bubble up from the last
index. -/
def heapEnqueue (cmp : Task → Task → ℚ) (item : Task) (h : List Task) : List Task :=
  bubbleUp cmp (h ++ [item]) ((h ++ [item]).length - 1)

/-- `dequeue` of `priority-queue.ts`: return the root, move the popped
last element to the root and sink it down.  `none` on the empty heap. -/
def heapDequeue (cmp : Task → Task → ℚ) (h : List Task) : Option (Task × List Task) :=
  match h with
  | [] => none
  | x :: xs =>
    if (x :: xs).dropLast.isEmpty then some (x, [])
    else
      some (x,
        sinkDown cmp
          ((x :: xs).dropLast.set 0 ((x :: xs).getLast (List.cons_ne_nil x xs))) 0)

/-! ### The heap operations permute their contents

No claim below depends on the heap *ordering*; what the scheduler
invariants need is that `enqueue` adds exactly its argument and
`dequeue` removes exactly the returned element. -/

theorem multiset_set (l : List Task) (i : ℕ) (hi : i < l.length) (a : Task) :
    (↑(l.set i a) : Multiset Task) + {l.getD i default} = (↑l : Multiset Task) + {a} := by
  induction l generalizing i with
  | nil => simp at hi
  | cons x xs ih =>
    cases i with
    | zero =>
      simp only [List.set, List.getD, List.get?_cons_zero, Option.getD_some]
      rw [← Multiset.cons_coe, ← Multiset.cons_coe,
        add_comm ((x : Task) ::ₘ (xs : Multiset Task)) _,
        add_comm ((a : Task) ::ₘ (xs : Multiset Task)) _,
        Multiset.singleton_add, Multiset.singleton_add]
      exact Multiset.cons_swap x a ↑xs
    | succ j =>
      have hj : j < xs.length := by simpa using hi
      simp only [List.set, List.getD, List.get?_cons_succ]
      rw [← Multiset.cons_coe, ← Multiset.cons_coe, Multiset.cons_add, Multiset.cons_add]
      have := ih j hj
      simp only [List.getD] at this
      rw [this]

theorem getD_set_self (l : List Task) (i : ℕ) (hi : i < l.length) (a : Task) :
    (l.set i a).getD i default = a := by
  simp [List.getD, List.getElem?_set_self, hi]

theorem getD_set_ne (l : List Task) (i j : ℕ) (hne : i ≠ j) (a : Task) :
    (l.set i a).getD j default = l.getD j default := by
  simp [List.getD, List.getElem?_set_ne, hne]

theorem lswap_coe (l : List Task) (i j : ℕ) (hi : i < l.length) (hj : j < l.length) :
    (↑(lswap l i j) : Multiset Task) = ↑l := by
  have hj' : j < (l.set i (l.getD j default)).length := by simpa using hj
  have h2 := multiset_set (l.set i (l.getD j default)) j hj' (l.getD i default)
  have h1 := multiset_set l i hi (l.getD j default)
  have hback : (l.set i (l.getD j default)).getD j default = l.getD j default := by
    by_cases hij : i = j
    · subst hij
      exact getD_set_self l i hi _
    · exact getD_set_ne l i j hij _
  rw [hback] at h2
  have : (↑(lswap l i j) : Multiset Task) + {l.getD j default}
      = (↑l : Multiset Task) + {l.getD j default} := by
    calc (↑(lswap l i j) : Multiset Task) + {l.getD j default}
        = ↑(l.set i (l.getD j default)) + {l.getD i default} := h2
      _ = (↑l : Multiset Task) + {l.getD j default} := h1
  exact add_right_cancel this

theorem bubbleUp_coe (cmp : Task → Task → ℚ) :
    ∀ (i : ℕ) (l : List Task), i < l.length →
      (↑(bubbleUp cmp l i) : Multiset Task) = ↑l := by
  intro i
  induction i using Nat.strong_induction_on with
  | _ i ih =>
    intro l hi
    match i with
    | 0 => rw [bubbleUp]
    | (k + 1) =>
      rw [bubbleUp]
      split
      · rfl
      · have hp : (k + 1 - 1) / 2 < k + 1 := by omega
        have hlen : (k + 1 - 1) / 2 < (lswap l (k + 1) ((k + 1 - 1) / 2)).length := by
          rw [lswap_length]
          omega
        rw [ih _ hp _ hlen]
        exact lswap_coe l (k + 1) ((k + 1 - 1) / 2) hi (by omega)

theorem sinkDownLoop_coe (cmp : Task → Task → ℚ) :
    ∀ (fuel : ℕ) (l : List Task) (i : ℕ),
      (↑(sinkDownLoop cmp fuel l i) : Multiset Task) = ↑l := by
  intro fuel
  induction fuel with
  | zero => intro l i; rfl
  | succ g ih =>
    intro l i
    rw [sinkDownLoop]
    split
    · rfl
    · rename_i hs
      obtain ⟨hgt, hlt⟩ := childMin_spec cmp l i hs
      rw [ih]
      exact lswap_coe l i (childMin cmp l i) (hgt.trans hlt) hlt

theorem sinkDown_coe (cmp : Task → Task → ℚ) (l : List Task) (i : ℕ) :
    (↑(sinkDown cmp l i) : Multiset Task) = ↑l :=
  sinkDownLoop_coe cmp l.length l i

theorem heapEnqueue_coe (cmp : Task → Task → ℚ) (t : Task) (h : List Task) :
    (↑(heapEnqueue cmp t h) : Multiset Task) = t ::ₘ ↑h := by
  unfold heapEnqueue
  rw [bubbleUp_coe cmp _ _ (by simp), ← Multiset.coe_add, add_comm,
    Multiset.coe_singleton, Multiset.singleton_add]

theorem heapEnqueue_length (cmp : Task → Task → ℚ) (t : Task) (h : List Task) :
    (heapEnqueue cmp t h).length = h.length + 1 := by
  have := congrArg Multiset.card (heapEnqueue_coe cmp t h)
  simpa using this

theorem heapDequeue_nil (cmp : Task → Task → ℚ) : heapDequeue cmp [] = none := rfl

theorem heapDequeue_eq_none (cmp : Task → Task → ℚ) (h : List Task) :
    heapDequeue cmp h = none ↔ h = [] := by
  cases h with
  | nil => simp [heapDequeue]
  | cons x xs =>
    simp only [heapDequeue]
    split <;> simp

theorem coe_dropLast_getLast (l : List Task) (hne : l ≠ []) :
    (↑l : Multiset Task) = l.getLast hne ::ₘ ↑l.dropLast := by
  conv_lhs => rw [← List.dropLast_append_getLast hne]
  rw [← Multiset.coe_add, add_comm, Multiset.coe_singleton, Multiset.singleton_add]

theorem heapDequeue_coe (cmp : Task → Task → ℚ) (h h' : List Task) (t : Task)
    (hd : heapDequeue cmp h = some (t, h')) :
    (↑h : Multiset Task) = t ::ₘ ↑h' := by
  cases h with
  | nil => simp [heapDequeue] at hd
  | cons x xs =>
    cases hxs : xs with
    | nil =>
      subst hxs
      simp only [heapDequeue, List.dropLast_single, List.isEmpty_nil, if_true,
        Option.some.injEq, Prod.mk.injEq] at hd
      obtain ⟨rfl, rfl⟩ := hd
      rfl
    | cons z zs =>
      subst hxs
      have hdl : (x :: z :: zs).dropLast = x :: (z :: zs).dropLast := rfl
      have hemp : (x :: z :: zs).dropLast.isEmpty = false := by
        rw [hdl]
        rfl
      simp only [heapDequeue, hemp, Bool.false_eq_true, if_false,
        Option.some.injEq, Prod.mk.injEq] at hd
      obtain ⟨rfl, rfl⟩ := hd
      -- relate the popped-and-sunk list back to the original contents
      rw [sinkDown_coe]
      have hsplit : (x :: z :: zs).dropLast.set 0 ((x :: z :: zs).getLast (by simp))
          = (x :: z :: zs).getLast (by simp) :: (z :: zs).dropLast := by
        rw [hdl]
        rfl
      rw [hsplit]
      have hlast : (x :: z :: zs).getLast (by simp) = (z :: zs).getLast (by simp) :=
        List.getLast_cons (by simp)
      rw [← Multiset.cons_coe, ← Multiset.cons_coe, hlast]
      congr 1
      exact coe_dropLast_getLast (z :: zs) (by simp)

theorem heapDequeue_length (cmp : Task → Task → ℚ) (h h' : List Task) (t : Task)
    (hd : heapDequeue cmp h = some (t, h')) : h.length = h'.length + 1 := by
  have := congrArg Multiset.card (heapDequeue_coe cmp h h' t hd)
  simpa using this

/-! ## Scheduler state snapshot and the default quota function
(`types.ts` `CascadeQState`, `default.ts` `DEFAULT_CALC_CONCURRENCY`) -/

/-- One entry of `CascadeQState.queues` (the `level` label is a symbol
and plays no role in any computation, so it is omitted). -/
structure QueueSnap where
  running : ℤ
  pending : ℕ
deriving DecidableEq, Repr

/-- `CascadeQState` of `types.ts`: the snapshot handed to the pluggable
`calcConcurrency` function. -/
structure CascadeQState where
  running : ℤ
  pending : ℕ
  max : ℤ
  queues : List QueueSnap
deriving DecidableEq, Repr

/-- `DEFAULT_CALC_CONCURRENCY` of `default.ts`:
`levelShare = Math.floor((max * levelWeight * levelPending) / totalPending)`
with `levelWeight = (totalLevels - index) / totalLevels`, and the result
is `Math.max(Math.min(levelShare, levelPending), 1)` once
`totalPending > 0`. -/
def DEFAULT_CALC_CONCURRENCY (index : ℕ) (s : CascadeQState) : ℤ :=
  let totalLevels := s.queues.length
  let totalPending := s.pending
  if totalPending = 0 then 0
  else
    let levelPending : ℕ := (s.queues.getD index ⟨0, 0⟩).pending
    let levelWeight : ℚ := ((totalLevels : ℚ) - (index : ℚ)) / (totalLevels : ℚ)
    let levelShare : ℤ := ⌊(s.max : ℚ) * levelWeight * (levelPending : ℚ) / (totalPending : ℚ)⌋
    max (min levelShare (levelPending : ℤ)) 1

/-! ## Scheduler model (`cascade-q.ts`)

The construction-time options are collected in `Cfg`; the mutable fields
of the `CascadeQ` object form `QState`.  `Date.now()` is an explicit
`now` argument.  Event emission is an append-only log of
(event kind, task id) pairs. -/

/-- Construction-time configuration of a `CascadeQ` instance. -/
structure Cfg where
  maxConcurrency : ℤ
  baseDecay : ℚ
  decayCurve : ℕ → ℚ
  calcConcurrency : ℕ → CascadeQState → ℤ
  taskTTL : ℕ
  priorityCheckInterval : ℕ
  priorityDecayInterval : ℕ
  thresholds : List ℚ
  startTime : ℕ

/-- `#normalizeThresholds` sorts the configured threshold values
ascending (`.sort((a, b) => a.value - b.value)`); the `level` labels do
not affect any computation and are omitted. -/
def sortedThresholds (cfg : Cfg) : List ℚ :=
  cfg.thresholds.insertionSort (· ≤ ·)

/-- Event names of `QueueEvent` in `types.ts`. -/
inductive EvKind where
  | enqueue
  | start
  | success
  | fail
  | complete
  | cancel
deriving DecidableEq, Repr

/-- The mutable state of a `CascadeQ` instance.  `status` is the status
field of every `TaskItem` ever created, keyed by id (ids are modelled as
consecutive naturals, `nextId` the next fresh one).  `runningIndex`
records, per running task, the `queueIndex` captured by `#executeTask`
for the later decrement.  `log` is the sequence of emitted events. -/
structure QState where
  queues : List (List Task)
  runningCounts : List ℤ
  isPaused : Bool
  isDisposed : Bool
  timerActive : Bool
  lastPriorityCheck : ℕ
  nextId : ℕ
  status : ℕ → TaskStatus
  runningIndex : List (ℕ × ℕ)
  log : List (EvKind × ℕ)

/-- `#calcEffectivePriority`:
`basePriority - baseDecay * decayCurve(floor((now - addedAt) / priorityDecayInterval))`. -/
def calcEffectivePriority (cfg : Cfg) (now : ℕ) (t : Task) : ℚ :=
  t.basePriority - cfg.baseDecay * cfg.decayCurve ((now - t.addedAt) / cfg.priorityDecayInterval)

/-- The heap comparator installed by the constructor: effective-priority
difference, ties broken by `addedAt` (JS `||` takes the second operand
when the first is `0`). -/
def taskCmp (cfg : Cfg) (now : ℕ) (a b : Task) : ℚ :=
  if calcEffectivePriority cfg now a - calcEffectivePriority cfg now b = 0 then
    (a.addedAt : ℚ) - (b.addedAt : ℚ)
  else calcEffectivePriority cfg now a - calcEffectivePriority cfg now b

/-- `get #runningTaskCount`: sum of the per-tier running counters. -/
def runningTaskCount (s : QState) : ℤ := s.runningCounts.sum

/-- Total pending count, as computed inside `#getState`. -/
def totalPending (s : QState) : ℕ := (s.queues.map List.length).sum

/-- `#getState(false)`: the snapshot handed to `calcConcurrency` (the
`concurrency` field is omitted in that call, so it is not modelled). -/
def getStateSnap (cfg : Cfg) (s : QState) : CascadeQState :=
  { running := runningTaskCount s
    pending := totalPending s
    max := cfg.maxConcurrency
    queues := (List.range (sortedThresholds cfg).length).map fun i =>
      { running := s.runningCounts.getD i 0, pending := (s.queues.getD i []).length } }

/-- The queue index chosen both by `#enqueueTask` and by
`#findTaskQueueIndex`: first threshold admitting the effective priority,
else the last queue. -/
def findQueueIndex (cfg : Cfg) (p : ℚ) : ℕ :=
  match (sortedThresholds cfg).findIdx? (fun v => decide (p ≤ v)) with
  | some i => i
  | none => (sortedThresholds cfg).length - 1

/-- `#enqueueTask`: insert the task into the heap of its tier. -/
def enqueueTask (cfg : Cfg) (now : ℕ) (t : Task) (s : QState) : QState :=
  let idx := findQueueIndex cfg (calcEffectivePriority cfg now t)
  { s with queues := s.queues.set idx (heapEnqueue (taskCmp cfg now) t (s.queues.getD idx [])) }

/-- `#getDefaultPriority`: last (largest) threshold value plus one. -/
def getDefaultPriority (cfg : Cfg) : ℚ :=
  ((sortedThresholds cfg).getLast?.getD 0) + 1

theorem enqueueTask_queues_length (cfg : Cfg) (now : ℕ) (t : Task) (s : QState) :
    (enqueueTask cfg now t s).queues.length = s.queues.length := by
  simp [enqueueTask]

theorem foldl_enqueueTask_queues_length (cfg : Cfg) (now : ℕ) (ts : List Task) (s : QState) :
    (ts.foldl (fun st t => enqueueTask cfg now t st) s).queues.length = s.queues.length := by
  induction ts generalizing s with
  | nil => rfl
  | cons t ts ih => rw [List.foldl_cons, ih, enqueueTask_queues_length]

/-- `#dequeueTask`, the scan over tiers in ascending index order:
recompute the tier quota, and pop from the first tier with both spare
tier quota (`available > 0`, where
`available = Math.min(remaining, concurrency - runningCounts[i])`) and a
non-empty heap.  Returns the tier index, the popped task and the
remaining heap.  The `gas` argument counts the indices still to visit;
the wrapper starts it at the number of tiers, so it is exactly
`#thresholds.length - i` throughout and the `gas = 0` case coincides
with the scan running off the end of the tier list. -/
def dequeueScan (cfg : Cfg) (now : ℕ) (s : QState) (remaining : ℤ) :
    ℕ → ℕ → Option (ℕ × Task × List Task)
  | 0, _ => none
  | (gas + 1), i =>
    if i < (sortedThresholds cfg).length then
      if 0 < min remaining (cfg.calcConcurrency i (getStateSnap cfg s) - s.runningCounts.getD i 0)
          ∧ 0 < (s.queues.getD i []).length then
        (heapDequeue (taskCmp cfg now) (s.queues.getD i [])).map fun p => (i, p.1, p.2)
      else
        dequeueScan cfg now s remaining gas (i + 1)
    else none

/-- `#dequeueTask`: nothing if no global capacity remains, else scan
from tier 0. -/
def dequeueTask (cfg : Cfg) (now : ℕ) (s : QState) : Option (ℕ × Task × List Task) :=
  if cfg.maxConcurrency - runningTaskCount s ≤ 0 then none
  else
    dequeueScan cfg now s (cfg.maxConcurrency - runningTaskCount s)
      (sortedThresholds cfg).length 0

/-- The synchronous head of `#executeTask`: recompute the tier index
from the task's *current* effective priority (`#findTaskQueueIndex`),
increment that tier's running counter, mark the task Running, emit
`start`, and remember the captured index for the later decrement. -/
def executeStart (cfg : Cfg) (now : ℕ) (t : Task) (s : QState) : QState :=
  let qi := findQueueIndex cfg (calcEffectivePriority cfg now t)
  { s with
    runningCounts := s.runningCounts.set qi (s.runningCounts.getD qi 0 + 1)
    status := fun j => if j = t.id then .running else s.status j
    runningIndex := (t.id, qi) :: s.runningIndex
    log := s.log ++ [(.start, t.id)] }

theorem dequeueScan_spec (cfg : Cfg) (now : ℕ) (s : QState) (remaining : ℤ) :
    ∀ (gas i i' : ℕ) (t : Task) (q' : List Task),
      dequeueScan cfg now s remaining gas i = some (i', t, q') →
      heapDequeue (taskCmp cfg now) (s.queues.getD i' []) = some (t, q') := by
  intro gas
  induction gas with
  | zero => intro i i' t q' h; exact absurd h (by simp [dequeueScan])
  | succ g ih =>
    intro i i' t q' h
    rw [dequeueScan] at h
    split at h
    · split at h
      · cases hd : heapDequeue (taskCmp cfg now) (s.queues.getD i []) with
        | none => rw [hd] at h; simp at h
        | some p =>
          rw [hd] at h
          simp only [Option.map_some', Option.some.injEq] at h
          rw [Prod.ext_iff] at h
          obtain ⟨h1, h23⟩ := h
          rw [Prod.ext_iff] at h23
          obtain ⟨h2, h3⟩ := h23
          subst h1
          subst h2
          subst h3
          rw [hd]
      · exact ih (i + 1) i' t q' h
    · exact absurd h (by simp)

theorem dequeueTask_spec (cfg : Cfg) (now : ℕ) (s : QState)
    (i : ℕ) (t : Task) (q' : List Task)
    (h : dequeueTask cfg now s = some (i, t, q')) :
    heapDequeue (taskCmp cfg now) (s.queues.getD i []) = some (t, q') := by
  rw [dequeueTask] at h
  split at h
  · exact absurd h (by simp)
  · exact dequeueScan_spec cfg now s _ _ 0 i t q' h

theorem getD_ne_nil_lt (qs : List (List Task)) (i : ℕ) (hne : qs.getD i [] ≠ []) :
    i < qs.length := by
  by_contra hge
  rw [List.getD_eq_default] at hne
  · exact hne rfl
  · omega

theorem sum_length_set (qs : List (List Task)) (i : ℕ) (hi : i < qs.length) (v : List Task) :
    ((qs.set i v).map List.length).sum + (qs.getD i []).length
      = (qs.map List.length).sum + v.length := by
  induction qs generalizing i with
  | nil => simp at hi
  | cons q qs ih =>
    cases i with
    | zero => simp [List.getD]; omega
    | succ j =>
      have hj : j < qs.length := by simpa using hi
      have := ih j hj
      simp only [List.set, List.map_cons, List.sum_cons, List.getD, List.get?_cons_succ]
      simp only [List.getD] at this
      omega

@[simp] theorem executeStart_queues (cfg : Cfg) (now : ℕ) (t : Task) (s : QState) :
    (executeStart cfg now t s).queues = s.queues := rfl

@[simp] theorem executeStart_nextId (cfg : Cfg) (now : ℕ) (t : Task) (s : QState) :
    (executeStart cfg now t s).nextId = s.nextId := rfl

@[simp] theorem executeStart_isPaused (cfg : Cfg) (now : ℕ) (t : Task) (s : QState) :
    (executeStart cfg now t s).isPaused = s.isPaused := rfl

@[simp] theorem executeStart_isDisposed (cfg : Cfg) (now : ℕ) (t : Task) (s : QState) :
    (executeStart cfg now t s).isDisposed = s.isDisposed := rfl

@[simp] theorem executeStart_timerActive (cfg : Cfg) (now : ℕ) (t : Task) (s : QState) :
    (executeStart cfg now t s).timerActive = s.timerActive := rfl

@[simp] theorem executeStart_lastPriorityCheck (cfg : Cfg) (now : ℕ) (t : Task) (s : QState) :
    (executeStart cfg now t s).lastPriorityCheck = s.lastPriorityCheck := rfl

theorem executeStart_status (cfg : Cfg) (now : ℕ) (t : Task) (s : QState) (j : ℕ) :
    (executeStart cfg now t s).status j = if j = t.id then .running else s.status j := rfl

/-- The `while` loop of `#schedule`: while global capacity remains, pop
an admissible task and start it.  Each iteration removes one task from
the queues, so the loop terminates; `none` records an exhausted fuel
budget (a step of the transition system below may pick any sufficient
fuel). -/
def scheduleLoop (cfg : Cfg) (now : ℕ) : ℕ → QState → Option QState
  | 0, _ => none
  | (fuel + 1), s =>
    if runningTaskCount s < cfg.maxConcurrency then
      match dequeueTask cfg now s with
      | none => some s
      | some (i, t, q') =>
        scheduleLoop cfg now fuel (executeStart cfg now t { s with queues := s.queues.set i q' })
    else some s

/-! ### The aging sweep (`#adjustPriorities`)

The drain loop of `#adjustPriorities` re-enqueues every task it decides
to keep *into the very queue it is draining* (`queue.enqueue(task)`
inside `while (queue.size > 0)`), so it can run forever.  It is embedded
with an explicit fuel; `none` means the loop did not terminate within
`fuel` iterations. -/

/-- One queue's `while (queue.size > 0)` loop of `#adjustPriorities`:
pop the root; if its effective priority exceeds the tier threshold push
it onto `temp`, otherwise re-enqueue it into the same queue. -/
def adjustQueueLoop (cfg : Cfg) (now : ℕ) (threshold : ℚ) :
    ℕ → List Task → List Task → Option (List Task × List Task)
  | 0, h, temp => if h.isEmpty then some (h, temp) else none
  | (fuel + 1), h, temp =>
    match heapDequeue (taskCmp cfg now) h with
    | none => some (h, temp)
    | some (t, h') =>
      if threshold < calcEffectivePriority cfg now t then
        adjustQueueLoop cfg now threshold fuel h' (temp ++ [t])
      else
        adjustQueueLoop cfg now threshold fuel (heapEnqueue (taskCmp cfg now) t h') temp

/-- The `forEach` over queues in `#adjustPriorities`: drain queue `i`,
then re-enqueue the collected `temp` tasks via `#enqueueTask`, then move
to queue `i + 1`.  `gas` counts the queues still to visit; the wrapper
starts it at the number of queues (which no iteration changes). -/
def adjustQueuesFrom (cfg : Cfg) (now : ℕ) (fuel : ℕ) : ℕ → ℕ → QState → Option QState
  | 0, _, s => some s
  | (gas + 1), i, s =>
    if i < s.queues.length then
      match adjustQueueLoop cfg now ((sortedThresholds cfg).getD i 0) fuel
          (s.queues.getD i []) [] with
      | none => none
      | some (h', temp) =>
        adjustQueuesFrom cfg now fuel gas (i + 1)
          (temp.foldl (fun st t => enqueueTask cfg now t st)
            { s with queues := s.queues.set i h' })
    else some s

/-- `#adjustPriorities`. -/
def adjustPriorities (cfg : Cfg) (now : ℕ) (fuel : ℕ) (s : QState) : Option QState :=
  adjustQueuesFrom cfg now fuel s.queues.length 0 s

/-- `#schedule`: bail out when paused or at the global cap; run the
aging sweep when more than `priorityCheckInterval` has elapsed since the
last check (updating `#lastPriorityCheck`); then run the dispatch loop. -/
def schedule (cfg : Cfg) (fuel : ℕ) (now : ℕ) (s : QState) : Option QState :=
  if s.isPaused = true ∨ cfg.maxConcurrency ≤ runningTaskCount s then some s
  else
    (if cfg.priorityCheckInterval < now - s.lastPriorityCheck then
      (adjustPriorities cfg now fuel s).map fun s' => { s' with lastPriorityCheck := now }
    else some s).bind (scheduleLoop cfg now fuel)

/-! ### Public operations -/

/-- The task item built by `add` (fresh id,
`basePriority = priority ?? #getDefaultPriority()`,
`addedAt = Date.now()`; its status starts Pending). -/
def newTask (cfg : Cfg) (now : ℕ) (prio : Option ℚ) (s : QState) : Task :=
  { id := s.nextId, basePriority := prio.getD (getDefaultPriority cfg), addedAt := now }

/-- The state just before the `#schedule()` call inside `add`: the task
item has been created and enqueued and the `enqueue` event emitted. -/
def addPrepared (cfg : Cfg) (now : ℕ) (prio : Option ℚ) (s : QState) : QState :=
  let s₁ := enqueueTask cfg now (newTask cfg now prio s)
    { s with
      nextId := s.nextId + 1
      status := fun j => if j = s.nextId then .pending else s.status j }
  { s₁ with log := s₁.log ++ [(.enqueue, (newTask cfg now prio s).id)] }

/-- `add`: throw (`Except.error`) when disposed; otherwise create the
task item, enqueue it, emit `enqueue`, and run `#schedule`. -/
def addTask (cfg : Cfg) (fuel : ℕ) (now : ℕ) (prio : Option ℚ) (s : QState) :
    Except Unit (Option QState) :=
  if s.isDisposed = true then .error ()
  else .ok (schedule cfg fuel now (addPrepared cfg now prio s))

/-- `pause`. -/
def pauseModel (s : QState) : QState := { s with isPaused := true }

/-- `resume`: no-op when not paused, else clear the flag and schedule. -/
def resumeModel (cfg : Cfg) (fuel : ℕ) (now : ℕ) (s : QState) : Option QState :=
  if s.isPaused = false then some s
  else schedule cfg fuel now { s with isPaused := false }

/-- Mark every id in `ids` with status `v`. -/
def setStatusMany (ids : List ℕ) (v : TaskStatus) (st : ℕ → TaskStatus) : ℕ → TaskStatus :=
  fun j => if ids.contains j then v else st j

/-- Rebuild a heap by enqueueing the given tasks in order into the
drained (empty) queue (`temp.forEach(item => queue.enqueue(item))`). -/
def rebuildHeap (cfg : Cfg) (now : ℕ) (ts : List Task) : List Task :=
  ts.foldl (fun h t => heapEnqueue (taskCmp cfg now) t h) []

/-- Fully drain a heap by repeated `dequeue`, returning the tasks in
drain order — the shape of the `while (queue.size > 0)` loops of
`cancel`, `clear` and `checkExpiredTasks`, none of which re-enqueue
during the drain.  One unit of fuel per element suffices
(`drainAllLoop_spec` below), so the wrapper passes `h.length`. -/
def drainAllLoop (cfg : Cfg) (now : ℕ) : ℕ → List Task → List Task
  | 0, _ => []
  | (fuel + 1), h =>
    match heapDequeue (taskCmp cfg now) h with
    | none => []
    | some (t, h') => t :: drainAllLoop cfg now fuel h'

/-- The dequeue order of a full drain of `h`. -/
def drainAll (cfg : Cfg) (now : ℕ) (h : List Task) : List Task :=
  drainAllLoop cfg now h.length h

/-- A full drain returns exactly the heap's contents: the fuel budget
`h.length` in `drainAll` is exact, and the drain is a permutation. -/
theorem drainAllLoop_spec (cfg : Cfg) (now : ℕ) :
    ∀ (fuel : ℕ) (h : List Task), h.length ≤ fuel →
      (↑(drainAllLoop cfg now fuel h) : Multiset Task) = ↑h := by
  intro fuel
  induction fuel with
  | zero =>
    intro h hf
    have : h = [] := List.length_eq_zero.mp (by omega)
    subst this
    rfl
  | succ g ih =>
    intro h hf
    rw [drainAllLoop]
    cases hd : heapDequeue (taskCmp cfg now) h with
    | none =>
      rw [(heapDequeue_eq_none _ _).mp hd]
    | some p =>
      have hcoe := heapDequeue_coe _ h p.2 p.1 hd
      have hlen := heapDequeue_length _ h p.2 p.1 hd
      rw [← Multiset.cons_coe, ih p.2 (by omega), hcoe]

theorem drainAll_coe (cfg : Cfg) (now : ℕ) (h : List Task) :
    (↑(drainAll cfg now h) : Multiset Task) = ↑h :=
  drainAllLoop_spec cfg now h.length h le_rfl

/-- The drain of one queue inside `cancel`, processing tasks in dequeue
order: items with the searched id become hits (cancelled and emitted by
the caller), the rest go to `temp` in drain order. -/
def cancelSplit (taskId : ℕ) : List Task → List Task × List Task
  | [] => ([], [])
  | t :: rest =>
    let (temp, hits) := cancelSplit taskId rest
    if t.id = taskId then (temp, t :: hits) else (t :: temp, hits)

/-- `cancel(taskId)`: walk the queues in order; drain and rebuild each,
removing (and cancelling, with one `cancel` event per hit) any item with
the given id; stop at the first queue where it was found.  `gas` counts
the queues still to visit (the wrapper starts it at their number, which
no iteration changes). -/
def cancelFrom (cfg : Cfg) (now : ℕ) (taskId : ℕ) : ℕ → ℕ → QState → Bool × QState
  | 0, _, s => (false, s)
  | (gas + 1), i, s =>
    if i < s.queues.length then
      match cancelSplit taskId (drainAll cfg now (s.queues.getD i [])) with
      | (temp, hits) =>
        if hits.isEmpty then
          cancelFrom cfg now taskId gas (i + 1)
            { s with queues := s.queues.set i (rebuildHeap cfg now temp) }
        else
          (true,
            { s with
              queues := s.queues.set i (rebuildHeap cfg now temp)
              status := setStatusMany (hits.map Task.id) .cancelled s.status
              log := s.log ++ hits.map fun t => (EvKind.cancel, t.id) })
    else (false, s)

/-- `cancel`. -/
def cancelModel (cfg : Cfg) (now : ℕ) (taskId : ℕ) (s : QState) : Bool × QState :=
  cancelFrom cfg now taskId s.queues.length 0 s

/-- `clear`: drain every queue, cancelling (and emitting `cancel` for)
every drained task, then `#initRunningCount()` — the running counters
are reset to a fresh all-zero array. -/
def clearModel (cfg : Cfg) (now : ℕ) (s : QState) : QState :=
  { s with
    queues := s.queues.map fun _ => []
    status := setStatusMany ((s.queues.map (drainAll cfg now)).flatten.map Task.id)
      .cancelled s.status
    log := s.log ++ (s.queues.map (drainAll cfg now)).flatten.map fun t => (EvKind.cancel, t.id)
    runningCounts := List.replicate (sortedThresholds cfg).length 0 }

/-- The drain of one queue inside `checkExpiredTasks`, processing tasks
in dequeue order: split into still-valid tasks (kept, in drain order)
and expired ones (`now - task.addedAt < taskTTL` keeps; otherwise the
task is cancelled). -/
def sweepSplit (cfg : Cfg) (now : ℕ) : List Task → List Task × List Task
  | [] => ([], [])
  | t :: rest =>
    let (v, e) := sweepSplit cfg now rest
    if now - t.addedAt < cfg.taskTTL then (t :: v, e) else (v, t :: e)

/-- `checkExpiredTasks` (the body of the `#startExpirationCheck` timer):
for each queue, drain it, re-enqueue the unexpired tasks, cancel (and
emit for) the expired ones. -/
def sweepModel (cfg : Cfg) (now : ℕ) (s : QState) : QState :=
  { s with
    queues := s.queues.map fun q =>
      rebuildHeap cfg now (sweepSplit cfg now (drainAll cfg now q)).1
    status := setStatusMany
      ((s.queues.map fun q => (sweepSplit cfg now (drainAll cfg now q)).2).flatten.map Task.id)
      .cancelled s.status
    log := s.log ++
      ((s.queues.map fun q => (sweepSplit cfg now (drainAll cfg now q)).2).flatten.map
        fun t => (EvKind.cancel, t.id)) }

/-- The continuation of `#executeTask` after `await taskItem.task()`
settles: set the terminal status, emit `success`/`fail`, then (in the
`finally` block) decrement the counter at the captured index, emit
`complete`, and re-run `#schedule`.  `none` when no running task with
this id exists (the continuation only exists for started tasks). -/
def finishTask (cfg : Cfg) (fuel : ℕ) (id : ℕ) (ok : Bool) (now : ℕ) (s : QState) :
    Option QState :=
  match s.runningIndex.lookup id with
  | none => none
  | some qi =>
    schedule cfg fuel now
      { s with
        status := fun j => if j = id then (if ok then .success else .failed) else s.status j
        runningCounts := s.runningCounts.set qi (s.runningCounts.getD qi 0 - 1)
        runningIndex := s.runningIndex.filter fun p => p.1 ≠ id
        log := s.log ++ [((if ok then EvKind.success else EvKind.fail), id)]
          ++ [(EvKind.complete, id)] }

/-- `dispose`: set the disposed flag, stop the cleanup timer, remove all
listeners (not part of the state), and `clear()`. -/
def disposeModel (cfg : Cfg) (now : ℕ) (s : QState) : QState :=
  clearModel cfg now { s with isDisposed := true, timerActive := false }

/-- The state built by the constructor. -/
def initState (cfg : Cfg) : QState :=
  { queues := List.replicate (sortedThresholds cfg).length []
    runningCounts := List.replicate (sortedThresholds cfg).length 0
    isPaused := false
    isDisposed := false
    timerActive := true
    lastPriorityCheck := cfg.startTime
    nextId := 0
    status := fun _ => .pending
    runningIndex := []
    log := [] }

/-- One observable step of the scheduler: a public API call, a timer
tick of the expiration check, or the settling of a running task's
promise.  Steps through `#schedule` only exist when its loops terminate
within some fuel. -/
inductive Step (cfg : Cfg) : QState → QState → Prop where
  | add (fuel now : ℕ) (prio : Option ℚ) (s s' : QState) :
      addTask cfg fuel now prio s = .ok (some s') → Step cfg s s'
  | pause (s : QState) : Step cfg s (pauseModel s)
  | resume (fuel now : ℕ) (s s' : QState) :
      resumeModel cfg fuel now s = some s' → Step cfg s s'
  | cancel (now id : ℕ) (s : QState) : Step cfg s (cancelModel cfg now id s).2
  | clear (now : ℕ) (s : QState) : Step cfg s (clearModel cfg now s)
  | sweep (now : ℕ) (s : QState) :
      s.timerActive = true → Step cfg s (sweepModel cfg now s)
  | finish (fuel id : ℕ) (ok : Bool) (now : ℕ) (s s' : QState) :
      finishTask cfg fuel id ok now s = some s' → Step cfg s s'
  | dispose (now : ℕ) (s : QState) : Step cfg s (disposeModel cfg now s)

/-- Reachable scheduler states. -/
def Reachable (cfg : Cfg) (s : QState) : Prop :=
  Relation.ReflTransGen (Step cfg) (initState cfg) s

/-! ## Scheduler invariants

The well-formedness invariant `Inv` ties the queues, the status map and
the running bookkeeping together; it holds in every reachable state
(`reachable_inv` below) and underpins the claims about `cancel`, the
status state machine, `dispose` and the expiry sweep. -/

/-- All tasks sitting in some tier queue. -/
def allQueued (s : QState) : List Task := s.queues.flatten

/-- The allowed status transitions (reflexivity included):
Pending→Running→Success/Failed, Pending→Cancelled. -/
def statusOK : TaskStatus → TaskStatus → Prop
  | a, b =>
    a = b ∨ (a = .pending ∧ b = .running) ∨ (a = .pending ∧ b = .cancelled)
      ∨ (a = .running ∧ b = .success) ∨ (a = .running ∧ b = .failed)

instance (a b : TaskStatus) : Decidable (statusOK a b) := by
  unfold statusOK
  infer_instance

/-- Scheduler well-formedness:
* `len_q`/`len_c` — one heap and one counter per tier;
* `q_pending` — queued tasks are Pending with an allocated id;
* `q_unique` — no id occurs twice across the queues;
* `p_queued` — every allocated Pending task sits in some queue;
* `fresh` — unallocated ids are (vacuously) Pending;
* `run_idx` — `runningIndex` entries belong to Running tasks. -/
structure Inv (cfg : Cfg) (s : QState) : Prop where
  len_q : s.queues.length = (sortedThresholds cfg).length
  len_c : s.runningCounts.length = (sortedThresholds cfg).length
  q_pending : ∀ t ∈ allQueued s, s.status t.id = .pending ∧ t.id < s.nextId
  q_unique : ((allQueued s).map Task.id).Nodup
  p_queued : ∀ id, id < s.nextId → s.status id = .pending →
    id ∈ (allQueued s).map Task.id
  fresh : ∀ id, s.nextId ≤ id → s.status id = .pending
  run_idx : ∀ p ∈ s.runningIndex, s.status p.1 = .running

/-- Coe version of `sum_length_set` for `flatten`: replacing entry `i`
exchanges exactly its contents. -/
theorem flatten_set_coe (qs : List (List Task)) (i : ℕ) (hi : i < qs.length)
    (v : List Task) :
    (↑(qs.set i v).flatten : Multiset Task) + ↑(qs.getD i [])
      = (↑qs.flatten : Multiset Task) + ↑v := by
  induction qs generalizing i with
  | nil => simp at hi
  | cons q qs ih =>
    cases i with
    | zero =>
      simp only [List.set, List.flatten_cons, List.getD, List.get?_cons_zero, Option.getD_some]
      rw [← Multiset.coe_add, ← Multiset.coe_add]
      abel
    | succ j =>
      have hj : j < qs.length := by simpa using hi
      have hrec := ih j hj
      simp only [List.set, List.flatten_cons, List.getD, List.get?_cons_succ]
      simp only [List.getD] at hrec
      rw [← Multiset.coe_add, ← Multiset.coe_add, add_assoc, add_assoc, hrec]

/-- `rebuildHeap` holds exactly the tasks it was given. -/
theorem rebuildHeap_coe (cfg : Cfg) (now : ℕ) (ts : List Task) :
    (↑(rebuildHeap cfg now ts) : Multiset Task) = ↑ts := by
  have key : ∀ (ts : List Task) (h0 : List Task),
      (↑(ts.foldl (fun h t => heapEnqueue (taskCmp cfg now) t h) h0) : Multiset Task)
        = ↑h0 + ↑ts := by
    intro ts
    induction ts with
    | nil => intro h0; simp
    | cons t ts ih =>
      intro h0
      rw [List.foldl_cons, ih, heapEnqueue_coe, ← Multiset.cons_coe,
        ← Multiset.singleton_add, ← Multiset.singleton_add]
      abel
  rw [rebuildHeap, key]
  simp

/-- `cancelSplit` is a partition by id. -/
theorem cancelSplit_eq (taskId : ℕ) (l : List Task) :
    cancelSplit taskId l
      = (l.filter (fun t => !(t.id == taskId)), l.filter (fun t => t.id == taskId)) := by
  induction l with
  | nil => rfl
  | cons t rest ih =>
    rw [cancelSplit, ih]
    by_cases ht : t.id = taskId
    · simp [List.filter_cons, ht]
    · simp [List.filter_cons, ht]

theorem findIdx?_some_lt {α : Type} (p : α → Bool) :
    ∀ (l : List α) (k i : ℕ), List.findIdx? p l k = some i → i < k + l.length := by
  intro l
  induction l with
  | nil => intro k i h; simp [List.findIdx?] at h
  | cons x xs ih =>
    intro k i h
    rw [List.findIdx?_cons] at h
    split at h
    · cases h
      simp
    · have := ih (k + 1) i h
      simp only [List.length_cons]
      omega

/-- The tier index chosen for any priority is in range (provided there
is at least one tier). -/
theorem findQueueIndex_lt (cfg : Cfg) (hne : sortedThresholds cfg ≠ []) (p : ℚ) :
    findQueueIndex cfg p < (sortedThresholds cfg).length := by
  rw [findQueueIndex]
  cases hf : (sortedThresholds cfg).findIdx? (fun v => decide (p ≤ v)) with
  | none =>
    have : (sortedThresholds cfg).length ≠ 0 := fun h0 => hne (List.length_eq_zero.mp h0)
    simpa using Nat.sub_lt (Nat.pos_of_ne_zero this) Nat.one_pos
  | some i =>
    simpa using findIdx?_some_lt _ _ 0 i hf

/-- `sweepSplit` is a partition by expiry. -/
theorem sweepSplit_eq (cfg : Cfg) (now : ℕ) (l : List Task) :
    sweepSplit cfg now l
      = (l.filter (fun t => decide (now - t.addedAt < cfg.taskTTL)),
         l.filter (fun t => !decide (now - t.addedAt < cfg.taskTTL))) := by
  induction l with
  | nil => rfl
  | cons t rest ih =>
    rw [sweepSplit, ih]
    by_cases ht : now - t.addedAt < cfg.taskTTL
    · simp [List.filter_cons, ht]
    · simp [List.filter_cons, ht]

/-! ### Preservation of the invariant by each operation -/

theorem enqueueTask_coe (cfg : Cfg) (now : ℕ) (t : Task) (s : QState)
    (hlen : s.queues.length = (sortedThresholds cfg).length)
    (hne : sortedThresholds cfg ≠ []) :
    (↑(allQueued (enqueueTask cfg now t s)) : Multiset Task) = t ::ₘ ↑(allQueued s) := by
  have hidx : findQueueIndex cfg (calcEffectivePriority cfg now t) < s.queues.length := by
    rw [hlen]
    exact findQueueIndex_lt cfg hne _
  have hkey := flatten_set_coe s.queues
    (findQueueIndex cfg (calcEffectivePriority cfg now t)) hidx
    (heapEnqueue (taskCmp cfg now) t
      (s.queues.getD (findQueueIndex cfg (calcEffectivePriority cfg now t)) []))
  rw [heapEnqueue_coe] at hkey
  have : (↑(allQueued (enqueueTask cfg now t s)) : Multiset Task)
        + ↑(s.queues.getD (findQueueIndex cfg (calcEffectivePriority cfg now t)) [])
      = (t ::ₘ ↑(allQueued s))
        + ↑(s.queues.getD (findQueueIndex cfg (calcEffectivePriority cfg now t)) []) := by
    simp only [allQueued, enqueueTask]
    rw [hkey, ← Multiset.singleton_add, ← Multiset.singleton_add]
    abel
  exact add_right_cancel this

/-- Any two states with the same status map, id bookkeeping and the
same queued-task multiset satisfy the invariant together. -/
theorem inv_transport (cfg : Cfg) (s s' : QState) (hInv : Inv cfg s)
    (hq : (↑(allQueued s') : Multiset Task) = ↑(allQueued s))
    (hlenq : s'.queues.length = s.queues.length)
    (hlenc : s'.runningCounts.length = s.runningCounts.length)
    (hst : s'.status = s.status)
    (hid : s'.nextId = s.nextId)
    (hri : s'.runningIndex = s.runningIndex) : Inv cfg s' := by
  have hmem : ∀ t : Task, t ∈ allQueued s' ↔ t ∈ allQueued s := by
    intro t
    rw [← Multiset.mem_coe, ← Multiset.mem_coe, hq]
  refine ⟨?_, ?_, ?_, ?_, ?_, ?_, ?_⟩
  · rw [hlenq, hInv.len_q]
  · rw [hlenc, hInv.len_c]
  · intro t ht
    rw [hst, hid]
    exact hInv.q_pending t ((hmem t).mp ht)
  · have : ((allQueued s').map Task.id : Multiset ℕ) = ((allQueued s).map Task.id : Multiset ℕ) := by
      rw [← Multiset.map_coe, ← Multiset.map_coe, hq]
    have hnd : (((allQueued s').map Task.id : List ℕ) : Multiset ℕ).Nodup := by
      rw [this]
      exact hInv.q_unique
    exact hnd
  · intro id hlt hpend
    rw [hid] at hlt
    rw [hst] at hpend
    have hsrc := hInv.p_queued id hlt hpend
    have hmm : (((allQueued s').map Task.id : List ℕ) : Multiset ℕ)
        = (((allQueued s).map Task.id : List ℕ) : Multiset ℕ) := by
      rw [← Multiset.map_coe, ← Multiset.map_coe, hq]
    rw [← Multiset.mem_coe, hmm, Multiset.mem_coe]
    exact hsrc
  · intro id hge
    rw [hid] at hge
    rw [hst]
    exact hInv.fresh id hge
  · intro p hp
    rw [hri] at hp
    rw [hst]
    exact hInv.run_idx p hp

@[simp] theorem enqueueTask_status (cfg : Cfg) (now : ℕ) (t : Task) (s : QState) :
    (enqueueTask cfg now t s).status = s.status := rfl

@[simp] theorem enqueueTask_nextId (cfg : Cfg) (now : ℕ) (t : Task) (s : QState) :
    (enqueueTask cfg now t s).nextId = s.nextId := rfl

@[simp] theorem enqueueTask_runningCounts (cfg : Cfg) (now : ℕ) (t : Task) (s : QState) :
    (enqueueTask cfg now t s).runningCounts = s.runningCounts := rfl

@[simp] theorem enqueueTask_runningIndex (cfg : Cfg) (now : ℕ) (t : Task) (s : QState) :
    (enqueueTask cfg now t s).runningIndex = s.runningIndex := rfl

@[simp] theorem enqueueTask_log (cfg : Cfg) (now : ℕ) (t : Task) (s : QState) :
    (enqueueTask cfg now t s).log = s.log := rfl

@[simp] theorem enqueueTask_isPaused (cfg : Cfg) (now : ℕ) (t : Task) (s : QState) :
    (enqueueTask cfg now t s).isPaused = s.isPaused := rfl

@[simp] theorem enqueueTask_isDisposed (cfg : Cfg) (now : ℕ) (t : Task) (s : QState) :
    (enqueueTask cfg now t s).isDisposed = s.isDisposed := rfl

theorem foldl_enqueueTask_fields (cfg : Cfg) (now : ℕ) (ts : List Task) (s : QState) :
    (ts.foldl (fun st t => enqueueTask cfg now t st) s).status = s.status
    ∧ (ts.foldl (fun st t => enqueueTask cfg now t st) s).nextId = s.nextId
    ∧ (ts.foldl (fun st t => enqueueTask cfg now t st) s).runningCounts = s.runningCounts
    ∧ (ts.foldl (fun st t => enqueueTask cfg now t st) s).runningIndex = s.runningIndex
    ∧ (ts.foldl (fun st t => enqueueTask cfg now t st) s).log = s.log
    ∧ (ts.foldl (fun st t => enqueueTask cfg now t st) s).isPaused = s.isPaused
    ∧ (ts.foldl (fun st t => enqueueTask cfg now t st) s).isDisposed = s.isDisposed
    ∧ (ts.foldl (fun st t => enqueueTask cfg now t st) s).lastPriorityCheck
        = s.lastPriorityCheck
    ∧ (ts.foldl (fun st t => enqueueTask cfg now t st) s).timerActive = s.timerActive := by
  induction ts generalizing s with
  | nil => exact ⟨rfl, rfl, rfl, rfl, rfl, rfl, rfl, rfl, rfl⟩
  | cons t ts ih =>
    rw [List.foldl_cons]
    exact ih (enqueueTask cfg now t s)

theorem foldl_enqueueTask_coe (cfg : Cfg) (now : ℕ) (hne : sortedThresholds cfg ≠ [])
    (ts : List Task) (s : QState)
    (hlen : s.queues.length = (sortedThresholds cfg).length) :
    (↑(allQueued (ts.foldl (fun st t => enqueueTask cfg now t st) s)) : Multiset Task)
      = ↑(allQueued s) + ↑ts := by
  induction ts generalizing s with
  | nil => simp
  | cons t ts ih =>
    rw [List.foldl_cons, ih (enqueueTask cfg now t s)
      (by rw [enqueueTask_queues_length, hlen]), enqueueTask_coe cfg now t s hlen hne,
      ← Multiset.cons_coe, ← Multiset.singleton_add, ← Multiset.singleton_add]
    abel

/-- The drain loop of the aging sweep conserves tasks (when it
terminates): final heap plus collected `temp` hold what heap and `temp`
held at entry. -/
theorem adjustQueueLoop_coe (cfg : Cfg) (now : ℕ) (threshold : ℚ) :
    ∀ (fuel : ℕ) (h temp h' temp' : List Task),
      adjustQueueLoop cfg now threshold fuel h temp = some (h', temp') →
      (↑h' : Multiset Task) + ↑temp' = ↑h + ↑temp := by
  intro fuel
  induction fuel with
  | zero =>
    intro h temp h' temp' hal
    rw [adjustQueueLoop] at hal
    split at hal
    · rw [Option.some.injEq, Prod.mk.injEq] at hal
      obtain ⟨rfl, rfl⟩ := hal
      rfl
    · exact absurd hal (by simp)
  | succ g ih =>
    intro h temp h' temp' hal
    cases hd : heapDequeue (taskCmp cfg now) h with
    | none =>
      simp only [adjustQueueLoop, hd] at hal
      rw [Option.some.injEq, Prod.mk.injEq] at hal
      obtain ⟨rfl, rfl⟩ := hal
      rfl
    | some p =>
      obtain ⟨t, h₂⟩ := p
      simp only [adjustQueueLoop, hd] at hal
      have hco := heapDequeue_coe _ h h₂ t hd
      split at hal
      · have := ih h₂ (temp ++ [t]) h' temp' hal
        rw [this, hco, ← Multiset.coe_add, Multiset.coe_singleton,
          ← Multiset.singleton_add]
        abel
      · have := ih (heapEnqueue (taskCmp cfg now) t h₂) temp h' temp' hal
        rw [this, heapEnqueue_coe, hco]

/-- The aging sweep (when it terminates) only rearranges tasks between
queues: statuses, counters, ids, the log and all flags are untouched,
and the multiset of queued tasks is conserved. -/
theorem adjustQueuesFrom_spec (cfg : Cfg) (now : ℕ) (fuel : ℕ)
    (hne : sortedThresholds cfg ≠ []) :
    ∀ (gas i : ℕ) (s s' : QState), adjustQueuesFrom cfg now fuel gas i s = some s' →
      s.queues.length = (sortedThresholds cfg).length →
      (↑(allQueued s') : Multiset Task) = ↑(allQueued s)
      ∧ s'.queues.length = s.queues.length
      ∧ s'.status = s.status ∧ s'.nextId = s.nextId
      ∧ s'.runningCounts = s.runningCounts ∧ s'.runningIndex = s.runningIndex
      ∧ s'.log = s.log ∧ s'.isPaused = s.isPaused ∧ s'.isDisposed = s.isDisposed
      ∧ s'.lastPriorityCheck = s.lastPriorityCheck ∧ s'.timerActive = s.timerActive := by
  intro gas
  induction gas with
  | zero =>
    intro i s s' hadj hlen
    rw [adjustQueuesFrom, Option.some.injEq] at hadj
    subst hadj
    exact ⟨rfl, rfl, rfl, rfl, rfl, rfl, rfl, rfl, rfl, rfl, rfl⟩
  | succ g ih =>
    intro i s s' hadj hlen
    rw [adjustQueuesFrom] at hadj
    split at hadj
    · rename_i hi
      cases hal : adjustQueueLoop cfg now ((sortedThresholds cfg).getD i 0) fuel
          (s.queues.getD i []) [] with
      | none => rw [hal] at hadj; exact absurd hadj (by simp)
      | some p =>
        rw [hal] at hadj
        have hloop := adjustQueueLoop_coe cfg now _ fuel _ _ p.1 p.2 hal
        -- the state after processing queue `i`
        have hmidlen : ((p.2.foldl (fun st t => enqueueTask cfg now t st)
            { s with queues := s.queues.set i p.1 }).queues.length)
              = (sortedThresholds cfg).length := by
          rw [foldl_enqueueTask_queues_length]
          simp [hlen]
        have hrec := ih (i + 1) _ s' hadj hmidlen
        have hfields := foldl_enqueueTask_fields cfg now p.2
          { s with queues := s.queues.set i p.1 }
        have hmidco : (↑(allQueued (p.2.foldl (fun st t => enqueueTask cfg now t st)
            { s with queues := s.queues.set i p.1 })) : Multiset Task)
              = ↑(allQueued s) := by
          rw [foldl_enqueueTask_coe cfg now hne p.2 _ (by simp [hlen])]
          have hset := flatten_set_coe s.queues i hi p.1
          have : (↑(allQueued { s with queues := s.queues.set i p.1 }) : Multiset Task)
              + ↑(s.queues.getD i []) = ↑(allQueued s) + ↑p.1 := hset
          have hall : (↑(allQueued { s with queues := s.queues.set i p.1 }) : Multiset Task)
                + ↑p.2 + ↑(s.queues.getD i [])
              = ↑(allQueued s) + ↑(s.queues.getD i []) := by
            have hsum : (↑p.1 : Multiset Task) + ↑p.2 = ↑(s.queues.getD i []) := by
              simpa using hloop
            calc (↑(allQueued { s with queues := s.queues.set i p.1 }) : Multiset Task)
                  + ↑p.2 + ↑(s.queues.getD i [])
                = (↑(allQueued { s with queues := s.queues.set i p.1 }) : Multiset Task)
                  + ↑(s.queues.getD i []) + ↑p.2 := by abel
              _ = ↑(allQueued s) + ↑p.1 + ↑p.2 := by rw [this]
              _ = ↑(allQueued s) + (↑p.1 + ↑p.2) := by abel
              _ = ↑(allQueued s) + ↑(s.queues.getD i []) := by rw [hsum]
          exact add_right_cancel hall
        refine ⟨?_, ?_, ?_, ?_, ?_, ?_, ?_, ?_, ?_, ?_, ?_⟩
        · rw [hrec.1, hmidco]
        · rw [hrec.2.1, foldl_enqueueTask_queues_length]
          simp
        · rw [hrec.2.2.1, hfields.1]
        · rw [hrec.2.2.2.1, hfields.2.1]
        · rw [hrec.2.2.2.2.1, hfields.2.2.1]
        · rw [hrec.2.2.2.2.2.1, hfields.2.2.2.1]
        · rw [hrec.2.2.2.2.2.2.1, hfields.2.2.2.2.1]
        · rw [hrec.2.2.2.2.2.2.2.1, hfields.2.2.2.2.2.1]
        · rw [hrec.2.2.2.2.2.2.2.2.1, hfields.2.2.2.2.2.2.1]
        · rw [hrec.2.2.2.2.2.2.2.2.2.1, hfields.2.2.2.2.2.2.2.1]
        · rw [hrec.2.2.2.2.2.2.2.2.2.2, hfields.2.2.2.2.2.2.2.2]
    · rw [Option.some.injEq] at hadj
      subst hadj
      exact ⟨rfl, rfl, rfl, rfl, rfl, rfl, rfl, rfl, rfl, rfl, rfl⟩

/-- A single dispatch (`#dequeueTask` followed by the synchronous head
of `#executeTask`) preserves the invariant and moves exactly the
dispatched (previously Pending) task to Running. -/
theorem dispatch_inv (cfg : Cfg) (now : ℕ) (s : QState) (hInv : Inv cfg s)
    (i : ℕ) (t : Task) (q' : List Task)
    (hd : dequeueTask cfg now s = some (i, t, q')) :
    Inv cfg (executeStart cfg now t { s with queues := s.queues.set i q' })
    ∧ s.status t.id = .pending
    ∧ (∀ j, (executeStart cfg now t { s with queues := s.queues.set i q' }).status j
        = if j = t.id then .running else s.status j) := by
  have hdq := dequeueTask_spec cfg now s i t q' hd
  have hco := heapDequeue_coe _ _ _ _ hdq
  have hlt : i < s.queues.length :=
    getD_ne_nil_lt s.queues i (by
      rintro hnil
      rw [hnil] at hdq
      simp [heapDequeue] at hdq)
  have hset := flatten_set_coe s.queues i hlt q'
  -- the queued multiset splits as the dispatched task plus the rest
  have hfull : (↑(allQueued s) : Multiset Task)
      = t ::ₘ ↑((s.queues.set i q').flatten) := by
    rw [hco] at hset
    have : (↑(s.queues.set i q').flatten : Multiset Task) + ({t} + ↑q')
        = ↑(allQueued s) + ↑q' := by
      rw [Multiset.singleton_add, hset]
      rfl
    have h2 : (↑(s.queues.set i q').flatten : Multiset Task) + {t} + ↑q'
        = ↑(allQueued s) + ↑q' := by
      rw [add_assoc]
      exact this
    have h3 := add_right_cancel h2
    rw [← h3, ← Multiset.singleton_add]
    abel
  have htq : t ∈ allQueued s := by
    rw [← Multiset.mem_coe, hfull]
    exact Multiset.mem_cons_self t _
  obtain ⟨hpend, hid⟩ := hInv.q_pending t htq
  have hids : ((allQueued s).map Task.id : Multiset ℕ)
      = t.id ::ₘ Multiset.map Task.id ↑((s.queues.set i q').flatten) := by
    rw [← Multiset.map_coe, hfull, Multiset.map_cons]
  have hnotin : t.id ∉ Multiset.map Task.id (↑((s.queues.set i q').flatten) : Multiset Task) := by
    have hnd := hInv.q_unique
    have : (((allQueued s).map Task.id : List ℕ) : Multiset ℕ).Nodup := hnd
    rw [Multiset.map_coe] at hids
    rw [hids] at this
    exact (Multiset.nodup_cons.mp this).1
  refine ⟨⟨?_, ?_, ?_, ?_, ?_, ?_, ?_⟩, hpend, fun j => rfl⟩
  · simpa using hInv.len_q
  · simp only [executeStart, List.length_set]
    exact hInv.len_c
  · intro u hu
    have humem : u ∈ allQueued s := by
      rw [← Multiset.mem_coe, hfull]
      exact Multiset.mem_cons_of_mem (by simpa [allQueued] using hu)
    obtain ⟨hup, huid⟩ := hInv.q_pending u humem
    have hune : u.id ≠ t.id := by
      intro he
      apply hnotin
      rw [← he]
      exact Multiset.mem_map_of_mem Task.id (by simpa [allQueued] using hu)
    refine ⟨?_, by simpa using huid⟩
    simp only [executeStart]
    rw [if_neg hune]
    exact hup
  · have hnd := hInv.q_unique
    have h1 : (((allQueued s).map Task.id : List ℕ) : Multiset ℕ).Nodup := hnd
    rw [Multiset.map_coe] at hids
    rw [hids] at h1
    have := (Multiset.nodup_cons.mp h1).2
    rw [← Multiset.map_coe] at this
    simpa [allQueued] using this
  · intro id hlt2 hpend2
    simp only [executeStart] at hpend2 ⊢
    by_cases hidt : id = t.id
    · rw [if_pos hidt] at hpend2
      exact absurd hpend2 (by simp)
    · rw [if_neg hidt] at hpend2
      have := hInv.p_queued id (by simpa using hlt2) hpend2
      have hin : id ∈ ((allQueued s).map Task.id : Multiset ℕ) := by
        simpa using this
      rw [hids] at hin
      rcases Multiset.mem_cons.mp hin with he | hin2
      · exact absurd he hidt
      · rw [Multiset.map_coe, Multiset.mem_coe] at hin2
        simpa [allQueued] using hin2
  · intro id hge
    have hge' : s.nextId ≤ id := by simpa using hge
    simp only [executeStart]
    rw [if_neg (by omega)]
    exact hInv.fresh id hge'
  · intro p hp
    simp only [executeStart] at hp ⊢
    rcases List.mem_cons.mp hp with he | hmem
    · rw [he]
      simp
    · have hrun := hInv.run_idx p hmem
      have : p.1 ≠ t.id := by
        intro he2
        rw [he2, hpend] at hrun
        exact absurd hrun (by simp)
      rw [if_neg this]
      exact hrun

/-- The dispatch loop preserves the invariant; the only status changes
it makes are Pending → Running. -/
theorem scheduleLoop_inv (cfg : Cfg) (now : ℕ) :
    ∀ (fuel : ℕ) (s s' : QState), scheduleLoop cfg now fuel s = some s' → Inv cfg s →
      Inv cfg s'
      ∧ (∀ j, s'.status j = s.status j ∨ (s.status j = .pending ∧ s'.status j = .running))
      ∧ s'.nextId = s.nextId ∧ s'.isPaused = s.isPaused ∧ s'.isDisposed = s.isDisposed
      ∧ s'.timerActive = s.timerActive ∧ s'.lastPriorityCheck = s.lastPriorityCheck := by
  intro fuel
  induction fuel with
  | zero =>
    intro s s' h hInv
    exact absurd h (by simp [scheduleLoop])
  | succ g ih =>
    intro s s' h hInv
    rw [scheduleLoop] at h
    split at h
    · cases hd : dequeueTask cfg now s with
      | none =>
        rw [hd] at h
        rw [Option.some.injEq] at h
        subst h
        exact ⟨hInv, fun j => Or.inl rfl, rfl, rfl, rfl, rfl, rfl⟩
      | some p =>
        obtain ⟨i, t, q'⟩ := p
        rw [hd] at h
        obtain ⟨hmid, hpend, hstat⟩ := dispatch_inv cfg now s hInv i t q' hd
        obtain ⟨hI, hS, hN, hP, hD, hT, hL⟩ := ih _ s' h hmid
        refine ⟨hI, ?_, by simpa using hN, by simpa using hP, by simpa using hD,
          by simpa using hT, by simpa using hL⟩
        intro j
        rcases hS j with he | ⟨hp2, hr2⟩
        · rw [he, hstat j]
          by_cases hj : j = t.id
          · rw [if_pos hj, hj]
            exact Or.inr ⟨hpend, rfl⟩
          · rw [if_neg hj]
            exact Or.inl rfl
        · rw [hstat j] at hp2
          by_cases hj : j = t.id
          · rw [if_pos hj] at hp2
            exact absurd hp2 (by simp)
          · rw [if_neg hj] at hp2
            exact Or.inr ⟨hp2, hr2⟩
    · rw [Option.some.injEq] at h
      subst h
      exact ⟨hInv, fun j => Or.inl rfl, rfl, rfl, rfl, rfl, rfl⟩

/-- `#schedule` preserves the invariant; the only status changes are
Pending → Running dispatches. -/
theorem schedule_inv (cfg : Cfg) (hne : sortedThresholds cfg ≠ [])
    (fuel now : ℕ) (s s' : QState)
    (h : schedule cfg fuel now s = some s') (hInv : Inv cfg s) :
    Inv cfg s'
    ∧ (∀ j, s'.status j = s.status j ∨ (s.status j = .pending ∧ s'.status j = .running))
    ∧ s'.nextId = s.nextId ∧ s'.isPaused = s.isPaused ∧ s'.isDisposed = s.isDisposed
    ∧ s'.timerActive = s.timerActive := by
  rw [schedule] at h
  split at h
  · rw [Option.some.injEq] at h
    subst h
    exact ⟨hInv, fun j => Or.inl rfl, rfl, rfl, rfl, rfl⟩
  · split at h
    · cases hadj : adjustPriorities cfg now fuel s with
      | none =>
        rw [hadj] at h
        exact absurd h (by simp)
      | some a =>
        rw [hadj] at h
        simp only [Option.map_some', Option.some_bind] at h
        rw [adjustPriorities] at hadj
        obtain ⟨hq, hlen, hst, hid, hrc, hri, hlog, hpf, hdf, hlc, htf⟩ :=
          adjustQueuesFrom_spec cfg now fuel hne s.queues.length 0 s a hadj hInv.len_q
        have hmidInv : Inv cfg { a with lastPriorityCheck := now } := by
          refine inv_transport cfg s { a with lastPriorityCheck := now } hInv ?_ ?_ ?_ ?_ ?_ ?_
          · simpa [allQueued] using hq
          · simpa using hlen
          · simp [hrc]
          · simpa using hst
          · simpa using hid
          · simpa using hri
        obtain ⟨hI, hS, hN, hP, hD, hT, hL⟩ := scheduleLoop_inv cfg now fuel _ s' h hmidInv
        refine ⟨hI, ?_, ?_, ?_, ?_, ?_⟩
        · intro j
          rcases hS j with he | ⟨hp2, hr2⟩
          · rw [he]
            have : ({ a with lastPriorityCheck := now } : QState).status j = s.status j := by
              simp [hst]
            rw [this]
            exact Or.inl rfl
          · have : ({ a with lastPriorityCheck := now } : QState).status j = s.status j := by
              simp [hst]
            rw [this] at hp2
            exact Or.inr ⟨hp2, hr2⟩
        · rw [hN]
          simpa using hid
        · rw [hP]
          simpa using hpf
        · rw [hD]
          simpa using hdf
        · rw [hT]
          simpa using htf
    · simp only [Option.some_bind] at h
      obtain ⟨hI, hS, hN, hP, hD, hT, hL⟩ := scheduleLoop_inv cfg now fuel s s' h hInv
      exact ⟨hI, hS, hN, hP, hD, hT⟩

/-- The enqueue phase of `add` preserves the invariant and leaves every
status value as it was (the fresh id was already Pending by
convention). -/
theorem addPrepared_inv (cfg : Cfg) (hne : sortedThresholds cfg ≠ [])
    (now : ℕ) (prio : Option ℚ) (s : QState) (hInv : Inv cfg s) :
    Inv cfg (addPrepared cfg now prio s)
    ∧ (∀ j, (addPrepared cfg now prio s).status j = s.status j) := by
  have hfreshzero : s.status s.nextId = .pending := hInv.fresh s.nextId le_rfl
  have hstatus : ∀ j, (addPrepared cfg now prio s).status j = s.status j := by
    intro j
    show (if j = s.nextId then TaskStatus.pending else s.status j) = s.status j
    by_cases hj : j = s.nextId
    · rw [if_pos hj, hj, hfreshzero]
    · rw [if_neg hj]
  have hco : (↑(allQueued (addPrepared cfg now prio s)) : Multiset Task)
      = newTask cfg now prio s ::ₘ ↑(allQueued s) := by
    show (↑(allQueued (enqueueTask cfg now (newTask cfg now prio s) _)) : Multiset Task) = _
    rw [enqueueTask_coe cfg now _ _ (by simpa using hInv.len_q) hne]
    rfl
  refine ⟨⟨?_, ?_, ?_, ?_, ?_, ?_, ?_⟩, hstatus⟩
  · show (enqueueTask cfg now _ _).queues.length = _
    rw [enqueueTask_queues_length]
    simpa using hInv.len_q
  · simpa using hInv.len_c
  · intro u hu
    have : u ∈ (newTask cfg now prio s ::ₘ (↑(allQueued s) : Multiset Task)) := by
      rw [← hco]
      simpa using hu
    have hnext : (addPrepared cfg now prio s).nextId = s.nextId + 1 := rfl
    rcases Multiset.mem_cons.mp this with he | hmem
    · subst he
      rw [hstatus, hnext]
      exact ⟨hfreshzero, by simp [newTask]⟩
    · obtain ⟨hp, hlt⟩ := hInv.q_pending u (by simpa using hmem)
      rw [hstatus, hnext]
      exact ⟨hp, by omega⟩
  · have hids : ((allQueued (addPrepared cfg now prio s)).map Task.id : Multiset ℕ)
        = s.nextId ::ₘ ((allQueued s).map Task.id : Multiset ℕ) := by
      rw [← Multiset.map_coe, hco, Multiset.map_cons, ← Multiset.map_coe]
      rfl
    have h1 : (((allQueued (addPrepared cfg now prio s)).map Task.id : List ℕ)
        : Multiset ℕ).Nodup := by
      rw [hids]
      rw [Multiset.nodup_cons]
      constructor
      · intro hmem
        rw [Multiset.mem_coe, List.mem_map] at hmem
        obtain ⟨u, hu, hui⟩ := hmem
        have := (hInv.q_pending u hu).2
        omega
      · exact hInv.q_unique
    exact h1
  · intro id hlt hpend
    have hnext : (addPrepared cfg now prio s).nextId = s.nextId + 1 := rfl
    rw [hnext] at hlt
    rw [hstatus] at hpend
    have hids : ((allQueued (addPrepared cfg now prio s)).map Task.id : Multiset ℕ)
        = s.nextId ::ₘ ((allQueued s).map Task.id : Multiset ℕ) := by
      rw [← Multiset.map_coe, hco, Multiset.map_cons, ← Multiset.map_coe]
      rfl
    rw [← Multiset.mem_coe, hids]
    by_cases hid0 : id = s.nextId
    · rw [hid0]
      exact Multiset.mem_cons_self _ _
    · have : id < s.nextId := by omega
      exact Multiset.mem_cons_of_mem (by simpa using hInv.p_queued id this hpend)
  · intro id hge
    have hnext : (addPrepared cfg now prio s).nextId = s.nextId + 1 := rfl
    rw [hnext] at hge
    rw [hstatus]
    exact hInv.fresh id (by omega)
  · intro p hp
    rw [hstatus]
    exact hInv.run_idx p hp

/-- `add` (when it does not throw and its `#schedule` terminates)
preserves the invariant; its only status changes are Pending → Running
dispatches. -/
theorem addTask_inv (cfg : Cfg) (hne : sortedThresholds cfg ≠ [])
    (fuel now : ℕ) (prio : Option ℚ) (s s' : QState)
    (h : addTask cfg fuel now prio s = .ok (some s')) (hInv : Inv cfg s) :
    Inv cfg s'
    ∧ (∀ j, s'.status j = s.status j ∨ (s.status j = .pending ∧ s'.status j = .running)) := by
  rw [addTask] at h
  split at h
  · exact absurd h (by simp)
  · rw [Except.ok.injEq] at h
    obtain ⟨hP, hst⟩ := addPrepared_inv cfg hne now prio s hInv
    obtain ⟨hI, hS, _, _, _, _⟩ := schedule_inv cfg hne fuel now _ s' h hP
    refine ⟨hI, fun j => ?_⟩
    rcases hS j with he | ⟨hp2, hr2⟩
    · rw [he, hst j]
      exact Or.inl rfl
    · rw [hst j] at hp2
      exact Or.inr ⟨hp2, hr2⟩

/-- `resume` preserves the invariant; its only status changes are
Pending → Running dispatches. -/
theorem resumeModel_inv (cfg : Cfg) (hne : sortedThresholds cfg ≠ [])
    (fuel now : ℕ) (s s' : QState)
    (h : resumeModel cfg fuel now s = some s') (hInv : Inv cfg s) :
    Inv cfg s'
    ∧ (∀ j, s'.status j = s.status j ∨ (s.status j = .pending ∧ s'.status j = .running)) := by
  rw [resumeModel] at h
  split at h
  · rw [Option.some.injEq] at h
    subst h
    exact ⟨hInv, fun j => Or.inl rfl⟩
  · have hInv2 : Inv cfg { s with isPaused := false } := by
      refine inv_transport cfg s _ hInv rfl rfl rfl rfl rfl rfl
    obtain ⟨hI, hS, _, _, _, _⟩ := schedule_inv cfg hne fuel now _ s' h hInv2
    exact ⟨hI, hS⟩

/-! ### `cancel` -/

theorem take_set (l : List (List Task)) (i : ℕ) (v : List Task) :
    (l.set i v).take i = l.take i := by
  induction l generalizing i with
  | nil => simp
  | cons x xs ih =>
    cases i with
    | zero => simp
    | succ j => simp [List.set, List.take_cons, ih j]

theorem map_filter_comm (f : Task → ℕ) (p : ℕ → Bool) (l : List Task) :
    (l.filter (fun a => p (f a))).map f = (l.map f).filter p := by
  induction l with
  | nil => rfl
  | cons x xs ih =>
    by_cases h : p (f x) <;> simp [List.filter_cons, h, ih]

theorem filter_partition_coe (p : Task → Bool) (l : List Task) :
    (↑(l.filter p) : Multiset Task) + ↑(l.filter (fun x => !p x)) = ↑l := by
  rw [Multiset.coe_add, Multiset.coe_eq_coe]
  exact List.filter_append_perm p l

/-- Under the invariant, the task id allocated to a queued task occurs
exactly once across the queues. -/
theorem count_id_le_one (cfg : Cfg) (s : QState) (hInv : Inv cfg s) (id : ℕ) :
    Multiset.count id (((allQueued s).map Task.id : List ℕ) : Multiset ℕ) ≤ 1 :=
  Multiset.nodup_iff_count_le_one.mp (Multiset.coe_nodup.mpr hInv.q_unique) id

/-- The remainder of the queues once entry `i` is split off. -/
theorem queues_split (s : QState) (i : ℕ) (hi : i < s.queues.length) :
    (↑(allQueued s) : Multiset Task)
      = ↑(s.queues.getD i []) + ↑((s.queues.set i []).flatten) := by
  have := flatten_set_coe s.queues i hi []
  simp only [Multiset.coe_nil, add_zero] at this
  simp only [allQueued]
  rw [← this]
  exact (add_comm _ _)

/-- Replacing queue `i` by a heap holding its tasks minus those with
the given id removes exactly those tasks from the flattened queues,
provided no other queue holds the id. -/
theorem flatten_remove_coe (taskId : ℕ) (qs : List (List Task)) (i : ℕ) (hi : i < qs.length)
    (repl : List Task)
    (hrepl : (↑repl : Multiset Task)
        = Multiset.filter (fun t => ¬ t.id = taskId) ↑(qs.getD i []))
    (hrest : Multiset.filter (fun t => ¬ t.id = taskId)
        (↑((qs.set i []).flatten) : Multiset Task) = ↑((qs.set i []).flatten)) :
    (↑((qs.set i repl).flatten) : Multiset Task)
      = Multiset.filter (fun t => ¬ t.id = taskId) (↑qs.flatten : Multiset Task) := by
  have hset := flatten_set_coe qs i hi repl
  have hsplit : (↑qs.flatten : Multiset Task)
      = ↑(qs.getD i []) + ↑((qs.set i []).flatten) := by
    have h0 := flatten_set_coe qs i hi []
    simp only [Multiset.coe_nil, add_zero] at h0
    rw [← h0]
    exact add_comm _ _
  have key : (↑((qs.set i repl).flatten) : Multiset Task) + ↑(qs.getD i [])
      = (Multiset.filter (fun t => ¬ t.id = taskId) (↑qs.flatten : Multiset Task))
        + ↑(qs.getD i []) := by
    rw [hset, hrepl, hsplit, Multiset.filter_add, hrest]
    abel
  exact add_right_cancel key

/-- Full characterization of the `cancel` scan from queue `i` on:
if the id is queued the scan cancels exactly that task, emits exactly
one event and removes exactly that task; otherwise it reports `false`
and changes no status and emits nothing.  The invariant is preserved
either way. -/
theorem cancelFrom_spec (cfg : Cfg) (now taskId : ℕ) :
    ∀ (gas i : ℕ) (s : QState), Inv cfg s →
      s.queues.length ≤ gas + i →
      taskId ∉ ((s.queues.take i).flatten.map Task.id) →
      ((taskId ∈ ((allQueued s).map Task.id) →
          (cancelFrom cfg now taskId gas i s).1 = true
        ∧ (cancelFrom cfg now taskId gas i s).2.status taskId = .cancelled
        ∧ (∀ j, j ≠ taskId → (cancelFrom cfg now taskId gas i s).2.status j = s.status j)
        ∧ (↑(allQueued (cancelFrom cfg now taskId gas i s).2) : Multiset Task)
            = Multiset.filter (fun t => ¬ t.id = taskId) ↑(allQueued s)
        ∧ (cancelFrom cfg now taskId gas i s).2.log = s.log ++ [(EvKind.cancel, taskId)]
        ∧ Inv cfg (cancelFrom cfg now taskId gas i s).2)
      ∧ (taskId ∉ ((allQueued s).map Task.id) →
          (cancelFrom cfg now taskId gas i s).1 = false
        ∧ (cancelFrom cfg now taskId gas i s).2.status = s.status
        ∧ (cancelFrom cfg now taskId gas i s).2.log = s.log
        ∧ (↑(allQueued (cancelFrom cfg now taskId gas i s).2) : Multiset Task)
            = ↑(allQueued s)
        ∧ Inv cfg (cancelFrom cfg now taskId gas i s).2)) := by
  intro gas
  induction gas with
  | zero =>
    intro i s hInv hgi htake
    have hlen : s.queues.length ≤ i := by omega
    have htake' : s.queues.take i = s.queues := List.take_of_length_le hlen
    rw [htake'] at htake
    constructor
    · intro hmem
      exact absurd hmem htake
    · intro _
      rw [cancelFrom]
      exact ⟨rfl, rfl, rfl, rfl, hInv⟩
  | succ g ih =>
    intro i s hInv hgi htake
    by_cases hi : i < s.queues.length
    · set di := drainAll cfg now (s.queues.getD i []) with hdi
      have hdico : (↑di : Multiset Task) = ↑(s.queues.getD i []) := drainAll_coe cfg now _
      have hsplit := queues_split s i hi
      by_cases hfound : taskId ∈ (di.map Task.id)
      · -- queue `i` holds the task
        have hone : di.filter (fun t => t.id == taskId) ≠ [] := by
          intro hnil
          obtain ⟨t₀, ht₀, hid₀⟩ := List.mem_map.mp hfound
          have : t₀ ∈ di.filter (fun t => t.id == taskId) :=
            List.mem_filter.mpr ⟨ht₀, by simpa using hid₀⟩
          rw [hnil] at this
          exact absurd this (List.not_mem_nil t₀)
        set s₁ : QState := { s with
          queues := s.queues.set i (rebuildHeap cfg now
            (di.filter (fun t => !(t.id == taskId))))
          status := setStatusMany ((di.filter (fun t => t.id == taskId)).map Task.id)
            .cancelled s.status
          log := s.log ++ (di.filter (fun t => t.id == taskId)).map
            fun t => (EvKind.cancel, t.id) } with hs₁def
        have hval : cancelFrom cfg now taskId (g + 1) i s = (true, s₁) := by
          rw [cancelFrom, if_pos hi, cancelSplit_eq]
          dsimp only []
          rw [if_neg (fun hemp => hone (by rwa [List.isEmpty_eq_true] at hemp))]
        -- the hit is unique
        have hcount_all := count_id_le_one cfg s hInv taskId
        have hhit_ids : (di.filter (fun t => t.id == taskId)).map Task.id
            = (di.map Task.id).filter (fun x => x == taskId) :=
          map_filter_comm Task.id (fun x => x == taskId) di
        have hcount_ge : 1 ≤ Multiset.count taskId ((di.map Task.id : List ℕ) : Multiset ℕ) := by
          rw [Multiset.one_le_count_iff_mem]
          simpa using hfound
        have hcount_di : Multiset.count taskId ((di.map Task.id : List ℕ) : Multiset ℕ) ≤ 1 := by
          refine le_trans ?_ hcount_all
          have hsub : ((di.map Task.id : List ℕ) : Multiset ℕ)
              ≤ ((allQueued s).map Task.id : List ℕ) := by
            rw [← Multiset.map_coe, ← Multiset.map_coe, hdico, hsplit]
            exact Multiset.map_le_map (Multiset.le_add_right _ _)
          exact Multiset.count_le_of_le taskId hsub
        have hcount_eq : Multiset.count taskId ((di.map Task.id : List ℕ) : Multiset ℕ) = 1 := by
          omega
        obtain ⟨t₀, hhits⟩ : ∃ t₀, di.filter (fun t => t.id == taskId) = [t₀] := by
          have hlen1 : (di.filter (fun t => t.id == taskId)).length = 1 := by
            have h1 : (di.filter (fun t => t.id == taskId)).length
                = ((di.map Task.id).filter (fun x => x == taskId)).length := by
              rw [← hhit_ids, List.length_map]
            have h2 : ((di.map Task.id).filter (fun x => x == taskId)).length
                = Multiset.count taskId ((di.map Task.id : List ℕ) : Multiset ℕ) := by
              rw [Multiset.coe_count, List.count, List.countP_eq_length_filter]
            rw [h1, h2, hcount_eq]
          match hm : di.filter (fun t => t.id == taskId) with
          | [t₀] => exact ⟨t₀, hm⟩
          | [] => rw [hm] at hlen1; simp at hlen1
          | a :: b :: rest => rw [hm] at hlen1; simp at hlen1
        have ht₀mem : t₀ ∈ di.filter (fun t => t.id == taskId) := by
          rw [hhits]
          exact List.mem_cons_self t₀ []
        have ht₀id : t₀.id = taskId := by simpa using (List.mem_filter.mp ht₀mem).2
        have ht₀full : t₀ ∈ allQueued s := by
          rw [← Multiset.mem_coe, hsplit]
          have : (t₀ : Task) ∈ (↑di : Multiset Task) := by
            simpa using (List.mem_filter.mp ht₀mem).1
          rw [hdico] at this
          exact Multiset.mem_add.mpr (Or.inl this)
        obtain ⟨ht₀pend, ht₀lt⟩ := hInv.q_pending t₀ ht₀full
        have hpend_taskId : s.status taskId = .pending := ht₀id ▸ ht₀pend
        have hlt_taskId : taskId < s.nextId := ht₀id ▸ ht₀lt
        have hhitids : (di.filter (fun t => t.id == taskId)).map Task.id = [taskId] := by
          rw [hhits, List.map_cons, List.map_nil, ht₀id]
        -- status map of the final state
        have hstat : ∀ j, s₁.status j = if j = taskId then .cancelled else s.status j := by
          intro j
          show setStatusMany _ .cancelled s.status j = _
          rw [setStatusMany, hhitids]
          by_cases hj : j = taskId
          · simp [hj]
          · simp [hj]
        -- queued-task multiset of the final state
        have htempco : (↑(di.filter (fun t => !(t.id == taskId))) : Multiset Task)
            = Multiset.filter (fun t => ¬ t.id = taskId) ↑(s.queues.getD i []) := by
          have hfun : (fun t : Task => !(t.id == taskId))
              = (fun t : Task => decide (¬ t.id = taskId)) := by
            funext u
            by_cases h : u.id = taskId <;> simp [h]
          rw [hfun, ← hdico]
          simp [Multiset.filter_coe]
        have hcount_rest : Multiset.count taskId
            (Multiset.map Task.id (↑((s.queues.set i []).flatten) : Multiset Task)) = 0 := by
          have h1 : Multiset.count taskId
              (Multiset.map Task.id (↑(allQueued s) : Multiset Task)) ≤ 1 := by
            have := hcount_all
            rw [← Multiset.map_coe] at this
            exact this
          have h2 : (1 : ℕ) ≤ Multiset.count taskId
              (Multiset.map Task.id (↑(s.queues.getD i []) : Multiset Task)) := by
            have := hcount_ge
            rw [← Multiset.map_coe, hdico] at this
            exact this
          have h3 : Multiset.map Task.id (↑(allQueued s) : Multiset Task)
              = Multiset.map Task.id (↑(s.queues.getD i []) : Multiset Task)
                + Multiset.map Task.id (↑((s.queues.set i []).flatten) : Multiset Task) := by
            rw [hsplit, Multiset.map_add]
          rw [h3, Multiset.count_add] at h1
          omega
        have hrest_nofilter : Multiset.filter (fun t => ¬ t.id = taskId)
              (↑((s.queues.set i []).flatten) : Multiset Task)
            = (↑((s.queues.set i []).flatten) : Multiset Task) := by
          rw [Multiset.filter_eq_self]
          intro u hu he
          rw [Multiset.count_eq_zero] at hcount_rest
          exact hcount_rest (by
            rw [← he]
            exact Multiset.mem_map_of_mem Task.id hu)
        have hnewco : (↑(allQueued s₁) : Multiset Task)
            = Multiset.filter (fun t => ¬ t.id = taskId) ↑(allQueued s) := by
          show (↑((s.queues.set i (rebuildHeap cfg now
              (di.filter (fun t => !(t.id == taskId))))).flatten) : Multiset Task) = _
          exact flatten_remove_coe taskId s.queues i hi _
            (by rw [rebuildHeap_coe, htempco]) hrest_nofilter
        rw [hval]
        constructor
        · intro _
          refine ⟨rfl, ?_, ?_, hnewco, ?_, ?_⟩
          · rw [hstat taskId, if_pos rfl]
          · intro j hj
            rw [hstat j, if_neg hj]
          · show s.log ++ (di.filter (fun t => t.id == taskId)).map
                (fun t => (EvKind.cancel, t.id)) = _
            rw [hhits, List.map_cons, List.map_nil, ht₀id]
          · -- the invariant after the removal
            refine ⟨?_, hInv.len_c, ?_, ?_, ?_, ?_, ?_⟩
            · show (s.queues.set i _).length = _
              rw [List.length_set]
              exact hInv.len_q
            · intro u hu
              have humem : u ∈ Multiset.filter (fun t => ¬ t.id = taskId)
                  (↑(allQueued s) : Multiset Task) := by
                rw [← hnewco]
                simpa using hu
              obtain ⟨humem2, hune⟩ := Multiset.mem_filter.mp humem
              obtain ⟨hup, hul⟩ := hInv.q_pending u (by simpa using humem2)
              refine ⟨?_, hul⟩
              rw [hstat u.id, if_neg hune]
              exact hup
            · have hle : (↑(allQueued s₁) : Multiset Task) ≤ ↑(allQueued s) := by
                rw [hnewco]
                exact Multiset.filter_le _ _
              have hnd := Multiset.nodup_of_le (Multiset.map_le_map hle)
                (by
                  rw [Multiset.map_coe]
                  exact Multiset.coe_nodup.mpr hInv.q_unique)
              rw [Multiset.map_coe] at hnd
              exact Multiset.coe_nodup.mp hnd
            · intro id hlt2 hpend2
              rw [hstat id] at hpend2
              by_cases hj : id = taskId
              · rw [if_pos hj] at hpend2
                exact absurd hpend2 (by simp)
              · rw [if_neg hj] at hpend2
                have hsrc := hInv.p_queued id hlt2 hpend2
                obtain ⟨u, hu, hui⟩ := List.mem_map.mp hsrc
                have humem : u ∈ Multiset.filter (fun t => ¬ t.id = taskId)
                    (↑(allQueued s) : Multiset Task) :=
                  Multiset.mem_filter.mpr ⟨by simpa using hu, by rw [hui]; exact hj⟩
                rw [← hnewco] at humem
                exact List.mem_map.mpr ⟨u, by simpa using humem, hui⟩
            · intro id hge
              have hge' : s.nextId ≤ id := hge
              rw [hstat id, if_neg (by omega)]
              exact hInv.fresh id hge'
            · intro p hp
              have hrun := hInv.run_idx p hp
              rw [hstat p.1, if_neg (by
                intro he
                rw [he, hpend_taskId] at hrun
                exact absurd hrun (by simp))]
              exact hrun
        · intro habs
          have hmm : taskId ∈ (allQueued s).map Task.id := by
            obtain ⟨u, hu, hui⟩ := List.mem_map.mp hfound
            have hudi : u ∈ allQueued s := by
              rw [← Multiset.mem_coe, hsplit]
              have : (u : Task) ∈ (↑di : Multiset Task) := by simpa using hu
              rw [hdico] at this
              exact Multiset.mem_add.mpr (Or.inl this)
            exact List.mem_map.mpr ⟨u, hudi, hui⟩
          exact absurd hmm habs
      · -- queue `i` does not hold the id: rebuild it and move on
        have hhitsnil : di.filter (fun t => t.id == taskId) = [] := by
          rw [List.filter_eq_nil_iff]
          intro u hu hmatch
          exact hfound (List.mem_map.mpr ⟨u, hu, by simpa using hmatch⟩)
        set s₁ : QState := { s with
          queues := s.queues.set i (rebuildHeap cfg now
            (di.filter (fun t => !(t.id == taskId)))) } with hs₁def
        have hval : cancelFrom cfg now taskId (g + 1) i s
            = cancelFrom cfg now taskId g (i + 1) s₁ := by
          rw [cancelFrom, if_pos hi, cancelSplit_eq]
          dsimp only []
          rw [if_pos (by rw [hhitsnil]; rfl)]
        have htempall : (↑(di.filter (fun t => !(t.id == taskId))) : Multiset Task) = ↑di := by
          have := filter_partition_coe (fun t => t.id == taskId) di
          rw [hhitsnil] at this
          simpa using this
        have hs₁co : (↑(allQueued s₁) : Multiset Task) = ↑(allQueued s) := by
          have hset2 := flatten_set_coe s.queues i hi
            (rebuildHeap cfg now (di.filter (fun t => !(t.id == taskId))))
          have hkey : (↑(allQueued s₁) : Multiset Task) + ↑(s.queues.getD i [])
              = ↑(allQueued s) + ↑(s.queues.getD i []) := by
            calc (↑(allQueued s₁) : Multiset Task) + ↑(s.queues.getD i [])
                = ↑(allQueued s) + ↑(rebuildHeap cfg now
                    (di.filter (fun t => !(t.id == taskId)))) := hset2
              _ = ↑(allQueued s) + ↑(s.queues.getD i []) := by
                  rw [rebuildHeap_coe, htempall, hdico]
          exact add_right_cancel hkey
        have hs₁inv : Inv cfg s₁ := inv_transport cfg s s₁ hInv hs₁co
          (by show (s.queues.set i _).length = _; rw [List.length_set]) rfl rfl rfl rfl
        have hs₁take : taskId ∉ ((s₁.queues.take (i + 1)).flatten.map Task.id) := by
          intro hmem
          have hq1 : s₁.queues = s.queues.set i (rebuildHeap cfg now
              (di.filter (fun t => !(t.id == taskId)))) := rfl
          rw [hq1, List.take_succ, take_set, List.getElem?_set_self hi] at hmem
          simp only [Option.toList_some, List.flatten_append, List.map_append,
            List.mem_append] at hmem
          rcases hmem with hmem | hmem
          · exact htake hmem
          · simp only [List.flatten_cons, List.flatten_nil, List.append_nil] at hmem
            obtain ⟨u, hu, hui⟩ := List.mem_map.mp hmem
            have hudi : u ∈ di := by
              have : (u : Task) ∈ (↑(rebuildHeap cfg now
                  (di.filter (fun t => !(t.id == taskId)))) : Multiset Task) := by
                simpa using hu
              rw [rebuildHeap_coe, htempall] at this
              simpa using this
            exact hfound (List.mem_map.mpr ⟨u, hudi, hui⟩)
        have hgi2 : s₁.queues.length ≤ g + (i + 1) := by
          have hq1 : s₁.queues.length = s.queues.length := by
            show (s.queues.set i _).length = _
            rw [List.length_set]
          omega
        have hrec := ih (i + 1) s₁ hs₁inv hgi2 hs₁take
        have hmemiff : taskId ∈ ((allQueued s₁).map Task.id)
            ↔ taskId ∈ ((allQueued s).map Task.id) := by
          constructor
          · intro hm
            obtain ⟨u, hu, hui⟩ := List.mem_map.mp hm
            have : u ∈ allQueued s := by
              rw [← Multiset.mem_coe, ← hs₁co]
              simpa using hu
            exact List.mem_map.mpr ⟨u, this, hui⟩
          · intro hm
            obtain ⟨u, hu, hui⟩ := List.mem_map.mp hm
            have : u ∈ allQueued s₁ := by
              rw [← Multiset.mem_coe, hs₁co]
              simpa using hu
            exact List.mem_map.mpr ⟨u, this, hui⟩
        rw [hval]
        constructor
        · intro hmem
          obtain ⟨hf, hst, hstj, hco2, hlog2, hinv2⟩ := hrec.1 (hmemiff.mpr hmem)
          exact ⟨hf, hst, hstj, by rw [hco2, hs₁co], hlog2, hinv2⟩
        · intro hmem
          obtain ⟨hf, hst, hlog2, hco2, hinv2⟩ := hrec.2 (fun hm => hmem (hmemiff.mp hm))
          exact ⟨hf, hst, hlog2, by rw [hco2, hs₁co], hinv2⟩
    · have hlen : s.queues.length ≤ i := by omega
      have htake' : s.queues.take i = s.queues := List.take_of_length_le hlen
      rw [htake'] at htake
      have hval : cancelFrom cfg now taskId (g + 1) i s = (false, s) := by
        rw [cancelFrom, if_neg hi]
      rw [hval]
      constructor
      · intro hmem
        exact absurd hmem htake
      · intro _
        exact ⟨rfl, rfl, rfl, rfl, hInv⟩

/-! ### `clear`, the expiry sweep, task completion, `dispose` -/

theorem lookup_mem {α β : Type} [BEq α] [LawfulBEq α] (l : List (α × β)) (a : α) (b : β)
    (h : l.lookup a = some b) : (a, b) ∈ l := by
  induction l with
  | nil => simp [List.lookup] at h
  | cons x xs ih =>
    rw [List.lookup_cons] at h
    split at h
    · rename_i heq
      rw [Option.some.injEq] at h
      subst h
      have ha : a = x.1 := by simpa using heq
      rw [ha]
      exact List.mem_cons_self x xs
    · exact List.mem_cons_of_mem x (ih h)

/-- The drains of all queues hold exactly the queued tasks. -/
theorem drains_coe (cfg : Cfg) (now : ℕ) (s : QState) :
    (↑((s.queues.map (drainAll cfg now)).flatten) : Multiset Task) = ↑(allQueued s) := by
  show _ = (↑(s.queues.flatten) : Multiset Task)
  induction s.queues with
  | nil => rfl
  | cons q rest ih =>
    simp only [List.map_cons, List.flatten_cons]
    rw [← Multiset.coe_add, ← Multiset.coe_add, drainAll_coe, ih]

/-- What `clear` does: every queued task Cancelled (one `cancel` event
each), queues empty, counters reset; the invariant is preserved. -/
theorem clearModel_spec (cfg : Cfg) (now : ℕ) (s : QState) (hInv : Inv cfg s) :
    (∀ j, (clearModel cfg now s).status j
        = if j ∈ (allQueued s).map Task.id then .cancelled else s.status j)
    ∧ allQueued (clearModel cfg now s) = []
    ∧ Inv cfg (clearModel cfg now s) := by
  have hmemiff : ∀ j, j ∈ ((s.queues.map (drainAll cfg now)).flatten.map Task.id)
      ↔ j ∈ ((allQueued s).map Task.id) := by
    intro j
    constructor
    · intro hm
      obtain ⟨u, hu, hui⟩ := List.mem_map.mp hm
      have : u ∈ allQueued s := by
        rw [← Multiset.mem_coe, ← drains_coe cfg now s]
        simpa using hu
      exact List.mem_map.mpr ⟨u, this, hui⟩
    · intro hm
      obtain ⟨u, hu, hui⟩ := List.mem_map.mp hm
      have : u ∈ (s.queues.map (drainAll cfg now)).flatten := by
        rw [← Multiset.mem_coe, drains_coe cfg now s]
        simpa using hu
      exact List.mem_map.mpr ⟨u, this, hui⟩
  have hstat : ∀ j, (clearModel cfg now s).status j
      = if j ∈ (allQueued s).map Task.id then .cancelled else s.status j := by
    intro j
    show setStatusMany _ .cancelled s.status j = _
    rw [setStatusMany]
    by_cases hj : j ∈ (allQueued s).map Task.id
    · rw [if_pos hj]
      have : ((s.queues.map (drainAll cfg now)).flatten.map Task.id).contains j = true := by
        rw [List.elem_iff]
        exact (hmemiff j).mpr hj
      rw [this]
      simp
    · rw [if_neg hj]
      have : ((s.queues.map (drainAll cfg now)).flatten.map Task.id).contains j = false := by
        rw [← Bool.not_eq_true, List.elem_iff]
        intro hm
        exact hj ((hmemiff j).mp hm)
      rw [this]
      simp
  have hempty : allQueued (clearModel cfg now s) = [] := by
    show (s.queues.map fun _ => ([] : List Task)).flatten = []
    simp
  refine ⟨hstat, hempty, ?_, ?_, ?_, ?_, ?_, ?_, ?_⟩
  · show (s.queues.map fun _ => ([] : List Task)).length = _
    rw [List.length_map]
    exact hInv.len_q
  · show (List.replicate (sortedThresholds cfg).length (0 : ℤ)).length = _
    rw [List.length_replicate]
  · intro u hu
    rw [hempty] at hu
    exact absurd hu (List.not_mem_nil u)
  · rw [hempty]
    exact List.nodup_nil
  · intro id hlt hpend
    rw [hstat id] at hpend
    by_cases hj : id ∈ (allQueued s).map Task.id
    · rw [if_pos hj] at hpend
      exact absurd hpend (by simp)
    · rw [if_neg hj] at hpend
      exact absurd (hInv.p_queued id hlt hpend) hj
  · intro id hge
    have hge' : s.nextId ≤ id := hge
    rw [hstat id, if_neg (by
      intro hm
      obtain ⟨u, hu, hui⟩ := List.mem_map.mp hm
      have := (hInv.q_pending u hu).2
      omega)]
    exact hInv.fresh id hge'
  · intro p hp
    have hrun := hInv.run_idx p hp
    rw [hstat p.1, if_neg (by
      intro hm
      obtain ⟨u, hu, hui⟩ := List.mem_map.mp hm
      have := (hInv.q_pending u hu).1
      rw [hui] at this
      rw [this] at hrun
      exact absurd hrun (by simp))]
    exact hrun

/-- The kept tasks of the expiry sweep, as a multiset: exactly the
unexpired queued tasks. -/
theorem sweep_kept_coe (cfg : Cfg) (now : ℕ) (s : QState) :
    (↑(allQueued (sweepModel cfg now s)) : Multiset Task)
      = Multiset.filter (fun t => now - t.addedAt < cfg.taskTTL) ↑(allQueued s) := by
  show (↑((s.queues.map fun q =>
      rebuildHeap cfg now (sweepSplit cfg now (drainAll cfg now q)).1).flatten) : Multiset Task)
    = Multiset.filter (fun t => now - t.addedAt < cfg.taskTTL) (↑(s.queues.flatten) : Multiset Task)
  induction s.queues with
  | nil => rfl
  | cons q rest ih =>
    simp only [List.map_cons, List.flatten_cons]
    rw [← Multiset.coe_add, ← Multiset.coe_add, Multiset.filter_add, ih]
    congr 1
    rw [rebuildHeap_coe, sweepSplit_eq]
    have : (↑((drainAll cfg now q).filter
        fun t => decide (now - t.addedAt < cfg.taskTTL)) : Multiset Task)
        = Multiset.filter (fun t => now - t.addedAt < cfg.taskTTL) ↑(drainAll cfg now q) := by
      simp [Multiset.filter_coe]
    rw [this, drainAll_coe]

/-- The expired tasks of the expiry sweep, as a multiset. -/
theorem sweep_expired_coe (cfg : Cfg) (now : ℕ) (s : QState) :
    (↑((s.queues.map fun q =>
        (sweepSplit cfg now (drainAll cfg now q)).2).flatten) : Multiset Task)
      = Multiset.filter (fun t => ¬ now - t.addedAt < cfg.taskTTL) ↑(allQueued s) := by
  show _ = Multiset.filter (fun t => ¬ now - t.addedAt < cfg.taskTTL)
    (↑(s.queues.flatten) : Multiset Task)
  induction s.queues with
  | nil => rfl
  | cons q rest ih =>
    simp only [List.map_cons, List.flatten_cons]
    rw [← Multiset.coe_add, ← Multiset.coe_add, Multiset.filter_add, ih]
    congr 1
    rw [sweepSplit_eq]
    have hfun : (fun t : Task => !decide (now - t.addedAt < cfg.taskTTL))
        = (fun t : Task => decide (¬ now - t.addedAt < cfg.taskTTL)) := by
      funext u
      by_cases h : now - u.addedAt < cfg.taskTTL <;> simp [h]
    rw [hfun]
    have : (↑((drainAll cfg now q).filter
        fun t => decide (¬ now - t.addedAt < cfg.taskTTL)) : Multiset Task)
        = Multiset.filter (fun t => ¬ now - t.addedAt < cfg.taskTTL) ↑(drainAll cfg now q) := by
      simp [Multiset.filter_coe]
    rw [this, drainAll_coe]

/-- The status map after the expiry sweep: expired queued ids are
Cancelled, everything else untouched. -/
theorem sweepModel_status (cfg : Cfg) (now : ℕ) (s : QState) (hInv : Inv cfg s) (j : ℕ) :
    (sweepModel cfg now s).status j
      = if ∃ u ∈ allQueued s, u.id = j ∧ cfg.taskTTL ≤ now - u.addedAt
        then .cancelled else s.status j := by
  show setStatusMany _ .cancelled s.status j = _
  rw [setStatusMany]
  have hmemiff : (((s.queues.map fun q =>
        (sweepSplit cfg now (drainAll cfg now q)).2).flatten.map Task.id).contains j = true)
      ↔ ∃ u ∈ allQueued s, u.id = j ∧ cfg.taskTTL ≤ now - u.addedAt := by
    rw [List.elem_iff]
    constructor
    · intro hm
      obtain ⟨u, hu, hui⟩ := List.mem_map.mp hm
      have hu2 : (u : Task) ∈ Multiset.filter (fun t => ¬ now - t.addedAt < cfg.taskTTL)
          (↑(allQueued s) : Multiset Task) := by
        rw [← sweep_expired_coe cfg now s]
        simpa using hu
      obtain ⟨hu3, hu4⟩ := Multiset.mem_filter.mp hu2
      exact ⟨u, by simpa using hu3, hui, by omega⟩
    · intro ⟨u, hu, hui, hexp⟩
      have hu2 : (u : Task) ∈ Multiset.filter (fun t => ¬ now - t.addedAt < cfg.taskTTL)
          (↑(allQueued s) : Multiset Task) :=
        Multiset.mem_filter.mpr ⟨by simpa using hu, by omega⟩
      rw [← sweep_expired_coe cfg now s] at hu2
      exact List.mem_map.mpr ⟨u, by simpa using hu2, hui⟩
  by_cases hj : ∃ u ∈ allQueued s, u.id = j ∧ cfg.taskTTL ≤ now - u.addedAt
  · rw [if_pos hj, hmemiff.mpr hj]
    simp
  · rw [if_neg hj]
    have : (((s.queues.map fun q =>
        (sweepSplit cfg now (drainAll cfg now q)).2).flatten.map Task.id).contains j) = false := by
      rw [← Bool.not_eq_true]
      intro hm
      exact hj (hmemiff.mp hm)
    rw [this]
    simp

/-- The expiry sweep preserves the invariant. -/
theorem sweepModel_inv (cfg : Cfg) (now : ℕ) (s : QState) (hInv : Inv cfg s) :
    Inv cfg (sweepModel cfg now s) := by
  have hco := sweep_kept_coe cfg now s
  have hstat := sweepModel_status cfg now s hInv
  refine ⟨?_, hInv.len_c, ?_, ?_, ?_, ?_, ?_⟩
  · show (s.queues.map _).length = _
    rw [List.length_map]
    exact hInv.len_q
  · intro u hu
    have hu2 : (u : Task) ∈ Multiset.filter (fun t => now - t.addedAt < cfg.taskTTL)
        (↑(allQueued s) : Multiset Task) := by
      rw [← hco]
      simpa using hu
    obtain ⟨hu3, hu4⟩ := Multiset.mem_filter.mp hu2
    obtain ⟨hup, hul⟩ := hInv.q_pending u (by simpa using hu3)
    refine ⟨?_, hul⟩
    rw [hstat u.id, if_neg ?_]
    · exact hup
    · intro ⟨v, hv, hvi, hvexp⟩
      have := List.inj_on_of_nodup_map hInv.q_unique hv (by simpa using hu3) (by rw [hvi])
      rw [← this] at hu4
      omega
  · have hle : (↑(allQueued (sweepModel cfg now s)) : Multiset Task) ≤ ↑(allQueued s) := by
      rw [hco]
      exact Multiset.filter_le _ _
    have hnd := Multiset.nodup_of_le (Multiset.map_le_map hle)
      (by
        rw [Multiset.map_coe]
        exact Multiset.coe_nodup.mpr hInv.q_unique)
    rw [Multiset.map_coe] at hnd
    exact Multiset.coe_nodup.mp hnd
  · intro id hlt hpend
    rw [hstat id] at hpend
    split at hpend
    · exact absurd hpend (by simp)
    · rename_i hnex
      have hsrc := hInv.p_queued id hlt hpend
      obtain ⟨u, hu, hui⟩ := List.mem_map.mp hsrc
      have hkeep : now - u.addedAt < cfg.taskTTL := by
        by_contra hexp
        exact hnex ⟨u, hu, hui, by omega⟩
      have : (u : Task) ∈ Multiset.filter (fun t => now - t.addedAt < cfg.taskTTL)
          (↑(allQueued s) : Multiset Task) :=
        Multiset.mem_filter.mpr ⟨by simpa using hu, hkeep⟩
      rw [← hco] at this
      exact List.mem_map.mpr ⟨u, by simpa using this, hui⟩
  · intro id hge
    have hge' : s.nextId ≤ id := hge
    rw [hstat id, if_neg (by
      intro ⟨u, hu, hui, _⟩
      have := (hInv.q_pending u hu).2
      omega)]
    exact hInv.fresh id hge'
  · intro p hp
    have hrun := hInv.run_idx p hp
    rw [hstat p.1, if_neg (by
      intro ⟨u, hu, hui, _⟩
      have := (hInv.q_pending u hu).1
      rw [hui] at this
      rw [this] at hrun
      exact absurd hrun (by simp))]
    exact hrun

/-- Completion of a running task preserves the invariant; the status
changes are the task's Running → terminal transition and any
Pending → Running dispatches of the triggered `#schedule`. -/
theorem finishTask_inv (cfg : Cfg) (hne : sortedThresholds cfg ≠ [])
    (fuel id : ℕ) (ok : Bool) (now : ℕ) (s s' : QState)
    (h : finishTask cfg fuel id ok now s = some s') (hInv : Inv cfg s) :
    Inv cfg s'
    ∧ s.status id = .running
    ∧ (∀ j, s'.status j
        = (if j = id then (if ok then .success else .failed) else s.status j)
      ∨ ((if j = id then (if ok then TaskStatus.success else .failed) else s.status j)
          = .pending
        ∧ s'.status j = .running)) := by
  rw [finishTask] at h
  cases hlk : s.runningIndex.lookup id with
  | none =>
    rw [hlk] at h
    exact absurd h (by simp)
  | some qi =>
    rw [hlk] at h
    have hmem := lookup_mem s.runningIndex id qi hlk
    have hrun : s.status id = .running := hInv.run_idx (id, qi) hmem
    have hidlt : id < s.nextId := by
      by_contra hge
      have := hInv.fresh id (by omega)
      rw [this] at hrun
      exact absurd hrun (by simp)
    set mid : QState := { s with
      status := fun j => if j = id then (if ok then .success else .failed) else s.status j
      runningCounts := s.runningCounts.set qi (s.runningCounts.getD qi 0 - 1)
      runningIndex := s.runningIndex.filter fun p => p.1 ≠ id
      log := s.log ++ [((if ok then EvKind.success else EvKind.fail), id)]
        ++ [(EvKind.complete, id)] } with hmiddef
    have hmidInv : Inv cfg mid := by
      refine ⟨hInv.len_q, ?_, ?_, hInv.q_unique, ?_, ?_, ?_⟩
      · show (s.runningCounts.set qi _).length = _
        rw [List.length_set]
        exact hInv.len_c
      · intro u hu
        obtain ⟨hup, hul⟩ := hInv.q_pending u hu
        refine ⟨?_, hul⟩
        show (if u.id = id then (if ok then TaskStatus.success else .failed)
          else s.status u.id) = .pending
        rw [if_neg (by
          intro he
          rw [he, hrun] at hup
          exact absurd hup (by simp))]
        exact hup
      · intro j hlt hpend
        have : mid.status j = (if j = id then (if ok then TaskStatus.success else .failed)
            else s.status j) := rfl
        rw [this] at hpend
        by_cases hj : j = id
        · rw [if_pos hj] at hpend
          cases ok <;> exact absurd hpend (by simp)
        · rw [if_neg hj] at hpend
          exact hInv.p_queued j hlt hpend
      · intro j hge
        have hge' : s.nextId ≤ j := hge
        show (if j = id then (if ok then TaskStatus.success else .failed)
          else s.status j) = .pending
        rw [if_neg (by omega)]
        exact hInv.fresh j hge'
      · intro p hp
        have hp2 : p ∈ s.runningIndex ∧ p.1 ≠ id := by
          have := List.mem_filter.mp hp
          exact ⟨this.1, by simpa using this.2⟩
        have hrun2 := hInv.run_idx p hp2.1
        show (if p.1 = id then (if ok then TaskStatus.success else .failed)
          else s.status p.1) = .running
        rw [if_neg hp2.2]
        exact hrun2
    obtain ⟨hI, hS, _, _, _, _⟩ := schedule_inv cfg hne fuel now mid s' h hmidInv
    refine ⟨hI, hrun, fun j => ?_⟩
    rcases hS j with he | ⟨hp2, hr2⟩
    · exact Or.inl he
    · exact Or.inr ⟨hp2, hr2⟩

/-- `pause` trivially preserves the invariant. -/
theorem pauseModel_inv (cfg : Cfg) (s : QState) (hInv : Inv cfg s) :
    Inv cfg (pauseModel s) :=
  inv_transport cfg s (pauseModel s) hInv rfl rfl rfl rfl rfl rfl

/-- `dispose` preserves the invariant. -/
theorem disposeModel_inv (cfg : Cfg) (now : ℕ) (s : QState) (hInv : Inv cfg s) :
    Inv cfg (disposeModel cfg now s) := by
  have hpre : Inv cfg { s with isDisposed := true, timerActive := false } :=
    inv_transport cfg s _ hInv rfl rfl rfl rfl rfl rfl
  exact (clearModel_spec cfg now _ hpre).2.2

/-- The constructor's state satisfies the invariant. -/
theorem initState_inv (cfg : Cfg) : Inv cfg (initState cfg) := by
  refine ⟨?_, ?_, ?_, ?_, ?_, ?_, ?_⟩
  · show (List.replicate _ ([] : List Task)).length = _
    rw [List.length_replicate]
  · show (List.replicate _ (0 : ℤ)).length = _
    rw [List.length_replicate]
  · intro u hu
    have : allQueued (initState cfg) = [] := by
      show (List.replicate (sortedThresholds cfg).length ([] : List Task)).flatten = []
      simp
    rw [this] at hu
    exact absurd hu (List.not_mem_nil u)
  · have : allQueued (initState cfg) = [] := by
      show (List.replicate (sortedThresholds cfg).length ([] : List Task)).flatten = []
      simp
    rw [this]
    exact List.nodup_nil
  · intro j hlt _
    exact absurd hlt (by simp [initState])
  · intro j _
    rfl
  · intro p hp
    exact absurd hp (List.not_mem_nil p)

/-- Every step preserves the invariant, and every status change it
makes follows the allowed transition diagram. -/
theorem step_inv (cfg : Cfg) (hne : sortedThresholds cfg ≠ []) (s s' : QState)
    (hInv : Inv cfg s) (hstep : Step cfg s s') :
    Inv cfg s' ∧ ∀ j, statusOK (s.status j) (s'.status j) := by
  cases hstep with
  | add fuel now prio _ _ h =>
    obtain ⟨hI, hS⟩ := addTask_inv cfg hne fuel now prio s s' h hInv
    refine ⟨hI, fun j => ?_⟩
    rcases hS j with he | ⟨hp, hr⟩
    · exact Or.inl he.symm
    · exact Or.inr (Or.inl ⟨hp, hr⟩)
  | pause _ =>
    exact ⟨pauseModel_inv cfg s hInv, fun j => Or.inl rfl⟩
  | resume fuel now _ _ h =>
    obtain ⟨hI, hS⟩ := resumeModel_inv cfg hne fuel now s s' h hInv
    refine ⟨hI, fun j => ?_⟩
    rcases hS j with he | ⟨hp, hr⟩
    · exact Or.inl he.symm
    · exact Or.inr (Or.inl ⟨hp, hr⟩)
  | cancel now id _ =>
    have hspec := cancelFrom_spec cfg now id s.queues.length 0 s hInv (by omega) (by simp)
    by_cases hmem : id ∈ ((allQueued s).map Task.id)
    · obtain ⟨_, hct, hcj, _, _, hI⟩ := hspec.1 hmem
      refine ⟨hI, fun j => ?_⟩
      by_cases hj : j = id
      · subst hj
        have hpend : s.status j = .pending := by
          obtain ⟨u, hu, hui⟩ := List.mem_map.mp hmem
          have := (hInv.q_pending u hu).1
          rw [hui] at this
          exact this
        rw [hpend]
        show statusOK _ ((cancelModel cfg now j s).2.status j)
        rw [show (cancelModel cfg now j s).2 = (cancelFrom cfg now j s.queues.length 0 s).2
          from rfl, hct]
        exact Or.inr (Or.inr (Or.inl ⟨rfl, rfl⟩))
      · rw [show (cancelModel cfg now id s).2 = (cancelFrom cfg now id s.queues.length 0 s).2
          from rfl, hcj j hj]
        exact Or.inl rfl
    · obtain ⟨_, hst, _, _, hI⟩ := hspec.2 hmem
      refine ⟨hI, fun j => ?_⟩
      rw [show (cancelModel cfg now id s).2 = (cancelFrom cfg now id s.queues.length 0 s).2
        from rfl, hst]
      exact Or.inl rfl
  | clear now _ =>
    obtain ⟨hstat, _, hI⟩ := clearModel_spec cfg now s hInv
    refine ⟨hI, fun j => ?_⟩
    rw [hstat j]
    by_cases hj : j ∈ (allQueued s).map Task.id
    · rw [if_pos hj]
      obtain ⟨u, hu, hui⟩ := List.mem_map.mp hj
      have := (hInv.q_pending u hu).1
      rw [hui] at this
      rw [this]
      exact Or.inr (Or.inr (Or.inl ⟨rfl, rfl⟩))
    · rw [if_neg hj]
      exact Or.inl rfl
  | sweep now _ _ =>
    have hI := sweepModel_inv cfg now s hInv
    refine ⟨hI, fun j => ?_⟩
    rw [sweepModel_status cfg now s hInv j]
    split
    · rename_i hex
      obtain ⟨u, hu, hui, _⟩ := hex
      have := (hInv.q_pending u hu).1
      rw [hui] at this
      rw [this]
      exact Or.inr (Or.inr (Or.inl ⟨rfl, rfl⟩))
    · exact Or.inl rfl
  | finish fuel id ok now _ _ h =>
    obtain ⟨hI, hrun, hS⟩ := finishTask_inv cfg hne fuel id ok now s s' h hInv
    refine ⟨hI, fun j => ?_⟩
    rcases hS j with he | ⟨hp, hr⟩
    · by_cases hj : j = id
      · subst hj
        rw [he, if_pos rfl, hrun]
        cases ok
        · exact Or.inr (Or.inr (Or.inr (Or.inr ⟨rfl, rfl⟩)))
        · exact Or.inr (Or.inr (Or.inr (Or.inl ⟨rfl, rfl⟩)))
      · rw [he, if_neg hj]
        exact Or.inl rfl
    · by_cases hj : j = id
      · subst hj
        rw [if_pos rfl] at hp
        cases ok <;> exact absurd hp (by simp)
      · rw [if_neg hj] at hp
        rw [hp, hr]
        exact Or.inr (Or.inl ⟨rfl, rfl⟩)
  | dispose now _ =>
    have hpre : Inv cfg { s with isDisposed := true, timerActive := false } :=
      inv_transport cfg s _ hInv rfl rfl rfl rfl rfl rfl
    obtain ⟨hstat, _, hI⟩ := clearModel_spec cfg now _ hpre
    refine ⟨hI, fun j => ?_⟩
    rw [show (disposeModel cfg now s).status j
      = (clearModel cfg now { s with isDisposed := true, timerActive := false }).status j
      from rfl, hstat j]
    by_cases hj : j ∈ (allQueued { s with isDisposed := true, timerActive := false }).map Task.id
    · rw [if_pos hj]
      obtain ⟨u, hu, hui⟩ := List.mem_map.mp hj
      have := (hpre.q_pending u hu).1
      rw [hui] at this
      rw [show ({ s with isDisposed := true, timerActive := false } : QState).status j
        = s.status j from rfl] at this
      rw [this]
      exact Or.inr (Or.inr (Or.inl ⟨rfl, rfl⟩))
    · rw [if_neg hj]
      exact Or.inl rfl

/-- The invariant holds in every reachable state. -/
theorem reachable_inv (cfg : Cfg) (hne : sortedThresholds cfg ≠ []) (s : QState)
    (h : Reachable cfg s) : Inv cfg s := by
  induction h with
  | refl => exact initState_inv cfg
  | tail _ hstep ih => exact (step_inv cfg hne _ _ ih hstep).1

end CascadeQ

namespace CascadeQ

/-! ## Concrete configurations and traces used by the claims

`cfgA` follows the default-shaped options (identity decay curve, default
concurrency allocator, thresholds 0 and 10, global cap 10) with the
decay interval shortened to 100ms; `cfgC1` additionally shortens
`priorityCheckInterval` to 500ms so that a call at time 600 triggers the
aging sweep.  The trace `sA0 → sA1 → sA2` pauses a fresh queue and adds
two tasks of base priority 6 at time 0. -/

def cfgA : Cfg :=
  { maxConcurrency := 10
    baseDecay := 1
    decayCurve := fun n => (n : ℚ)
    calcConcurrency := DEFAULT_CALC_CONCURRENCY
    taskTTL := 60000
    priorityCheckInterval := 10000
    priorityDecayInterval := 100
    thresholds := [0, 10]
    startTime := 0 }

def cfgC1 : Cfg :=
  { maxConcurrency := 10
    baseDecay := 1
    decayCurve := fun n => (n : ℚ)
    calcConcurrency := DEFAULT_CALC_CONCURRENCY
    taskTTL := 60000
    priorityCheckInterval := 500
    priorityDecayInterval := 100
    thresholds := [0, 10]
    startTime := 0 }

def taskC1 : Task := { id := 0, basePriority := 6, addedAt := 0 }

def sA0 : QState := pauseModel (initState cfgA)

def sA1 : QState := addPrepared cfgA 0 (some 6) sA0

def sA2 : QState := addPrepared cfgA 0 (some 6) sA1

def sC1 : QState := addPrepared cfgC1 0 (some 6) (pauseModel (initState cfgC1))

/-! ## C1: the aging sweep

`#adjustPriorities` re-enqueues every task it decides to keep into the
very queue it is draining, so on any queue holding one task the sweep's
drain loop never terminates. -/

/-- Draining an empty queue succeeds at once, with any fuel. -/
theorem adjustQueueLoop_nil (cfg : Cfg) (now : ℕ) (thr : ℚ) (temp : List Task) :
    ∀ fuel, adjustQueueLoop cfg now thr fuel [] temp = some ([], temp)
  | 0 => rfl
  | (_ + 1) => rfl

/-- The drain loop of the sweep never terminates on tier 1's queue
`[taskC1]` at time 600: the task's effective priority (0) does not
exceed the tier threshold (10), so every iteration re-enqueues it. -/
theorem C1_queue_loop_diverges :
    ∀ fuel, adjustQueueLoop cfgC1 600 10 fuel [taskC1] [] = none := by
  have hdq : heapDequeue (taskCmp cfgC1 600) [taskC1] = some (taskC1, []) := by
    with_unfolding_all decide
  have hlt : ¬ ((10 : ℚ) < calcEffectivePriority cfgC1 600 taskC1) := by
    with_unfolding_all decide
  have henq : heapEnqueue (taskCmp cfgC1 600) taskC1 [] = [taskC1] := by
    with_unfolding_all decide
  intro fuel
  induction fuel with
  | zero => rfl
  | succ g ih =>
    simp only [adjustQueueLoop, hdq]
    rw [if_neg hlt, henq]
    exact ih

/-- On any state whose queues are `[[], [taskC1]]`, `#adjustPriorities`
at time 600 runs forever, whatever the fuel. -/
theorem C1_adjust_diverges (fuel : ℕ) (s : QState) (hq : s.queues = [[], [taskC1]]) :
    adjustQueuesFrom cfgC1 600 fuel 2 0 s = none := by
  have hlen : s.queues.length = 2 := by rw [hq]; rfl
  rw [show (2 : ℕ) = 1 + 1 from rfl, adjustQueuesFrom]
  rw [if_pos (by omega : 0 < s.queues.length)]
  rw [show s.queues.getD 0 [] = [] from by rw [hq]; rfl]
  rw [adjustQueueLoop_nil]
  show adjustQueuesFrom cfgC1 600 fuel 1 1
    (List.foldl _ { s with queues := s.queues.set 0 [] } []) = none
  rw [List.foldl_nil]
  have hq' : ({ s with queues := s.queues.set 0 [] } : QState).queues = [[], [taskC1]] := by
    show s.queues.set 0 [] = _
    rw [hq]
    rfl
  rw [show (1 : ℕ) = 0 + 1 from rfl, adjustQueuesFrom]
  rw [if_pos (show 1 < ({ s with queues := s.queues.set 0 [] } : QState).queues.length
    from by rw [hq']; decide)]
  rw [show ({ s with queues := s.queues.set 0 [] } : QState).queues.getD 1 [] = [taskC1]
    from by rw [hq']; rfl]
  rw [show (sortedThresholds cfgC1).getD 1 0 = 10 from by with_unfolding_all decide]
  rw [C1_queue_loop_diverges fuel]

/-- **C1.** Refuted as stated: in the claim's own concrete scenario
(thresholds `[0, 10]`, `baseDecay` 1, decay interval 100, a task of base
priority 6 added at time 0, sitting in tier 1), at time 600 the task's
effective priority is 0, which tier 0 admits — yet the aging sweep never
places it in tier 0: `#adjustPriorities` re-enqueues each kept task into
the queue it is draining, so its drain loop never terminates (`none` for
every fuel), and the `resume` call that triggers the sweep diverges with
it. -/
theorem C1_aging_sweep_never_promotes :
    (∀ fuel, addTask cfgC1 fuel 0 (some 6) (pauseModel (initState cfgC1)) = .ok (some sC1))
    ∧ sC1.queues = [[], [taskC1]]
    ∧ calcEffectivePriority cfgC1 600 taskC1 = 0
    ∧ findQueueIndex cfgC1 (calcEffectivePriority cfgC1 600 taskC1) = 0
    ∧ (∀ fuel, adjustPriorities cfgC1 600 fuel sC1 = none)
    ∧ (∀ fuel, resumeModel cfgC1 fuel 600 sC1 = none) := by
  have hq : sC1.queues = [[], [taskC1]] := by with_unfolding_all decide
  refine ⟨fun fuel => rfl, hq, by with_unfolding_all decide,
    by with_unfolding_all decide, ?_, ?_⟩
  · intro fuel
    show adjustQueuesFrom cfgC1 600 fuel sC1.queues.length 0 sC1 = none
    rw [show sC1.queues.length = 2 from by rw [hq]; rfl]
    exact C1_adjust_diverges fuel sC1 hq
  · intro fuel
    rw [resumeModel, if_neg (show ¬ sC1.isPaused = false from by
      with_unfolding_all decide)]
    rw [schedule, if_neg (show ¬ (({ sC1 with isPaused := false } : QState).isPaused = true
        ∨ cfgC1.maxConcurrency ≤ runningTaskCount { sC1 with isPaused := false }) from by
      rintro (h | h)
      · exact absurd h (by with_unfolding_all decide)
      · exact absurd h (by with_unfolding_all decide))]
    rw [if_pos (show cfgC1.priorityCheckInterval
        < 600 - ({ sC1 with isPaused := false } : QState).lastPriorityCheck from by
      with_unfolding_all decide)]
    have hdiv : adjustPriorities cfgC1 600 fuel { sC1 with isPaused := false } = none := by
      show adjustQueuesFrom cfgC1 600 fuel
        ({ sC1 with isPaused := false } : QState).queues.length 0 _ = none
      rw [show ({ sC1 with isPaused := false } : QState).queues.length = 2 from by
        show sC1.queues.length = 2
        rw [hq]
        rfl]
      exact C1_adjust_diverges fuel { sC1 with isPaused := false } hq
    rw [hdiv]
    rfl

/-! ## C2 and C3: the default concurrency allocator -/

/-- The snapshot of the paused one-task queue `sC1`: one pending task in
tier 1, none in tier 0. -/
def snapC2 : CascadeQState :=
  { running := 0
    pending := 1
    max := 10
    queues := [{ running := 0, pending := 0 }, { running := 0, pending := 1 }] }

/-- **C2.** Refuted: on the real snapshot of `sC1` — tier 0 has no
pending task while tier 1 has one — the default `calcConcurrency`
returns 1 for tier 0, not 0, and so exceeds tier 0's pending count: the
final `Math.max(…, 1)` overrides the clamp its own doc comment
promises. -/
theorem C2_default_quota_exceeds_pending :
    getStateSnap cfgC1 sC1 = snapC2
    ∧ (snapC2.queues.getD 0 { running := 0, pending := 0 }).pending = 0
    ∧ DEFAULT_CALC_CONCURRENCY 0 snapC2 = 1
    ∧ ¬ DEFAULT_CALC_CONCURRENCY 0 snapC2
        ≤ ((snapC2.queues.getD 0 { running := 0, pending := 0 }).pending : ℤ) := by
  with_unfolding_all decide

/-- The default allocator as §4.4 of the spec describes it, for
comparison with `DEFAULT_CALC_CONCURRENCY` above: the ceiling share
clamped to the tier's pending count, zero for an empty tier, and a
phase-2 boost of tier 0 to `min(ceil(max * 0.6), pending₀)` whenever the
raw share falls short of tier 0's pending count. -/
def specCalcConcurrency (index : ℕ) (s : CascadeQState) : ℤ :=
  let totalLevels := s.queues.length
  let levelPending : ℕ := (s.queues.getD index { running := 0, pending := 0 }).pending
  if s.pending = 0 ∨ levelPending = 0 then 0
  else
    let levelWeight : ℚ := ((totalLevels : ℚ) - (index : ℚ)) / (totalLevels : ℚ)
    let rawShare : ℤ := ⌈(s.max : ℚ) * levelWeight * (levelPending : ℚ) / (s.pending : ℚ)⌉
    if index = 0 ∧ rawShare < (levelPending : ℤ) then
      min ⌈(s.max : ℚ) * (6 / 10)⌉ (levelPending : ℤ)
    else
      min rawShare (levelPending : ℤ)

/-- A snapshot with 10 pending tasks in each of two tiers under a
global cap of 10. -/
def snapC3 : CascadeQState :=
  { running := 0
    pending := 20
    max := 10
    queues := [{ running := 0, pending := 10 }, { running := 0, pending := 10 }] }

/-- **C3** (counterexample): the spec's phase-2 boost would give tier 0
a quota of 6 on `snapC3`; the code gives 5 — no phase 2 exists in
`DEFAULT_CALC_CONCURRENCY`. -/
theorem C3_no_phase2_boost :
    DEFAULT_CALC_CONCURRENCY 0 snapC3 = 5
    ∧ specCalcConcurrency 0 snapC3 = 6
    ∧ ¬ DEFAULT_CALC_CONCURRENCY 0 snapC3 = specCalcConcurrency 0 snapC3 := by
  with_unfolding_all decide

/-- **C3** (amended): tier 0's quota from the default allocator is the
single-phase floor share `⌊max * pending₀ / totalPending⌋` (tier 0's
level weight is 1) clamped to `pending₀` from above and to 1 from below;
there is no 60%-of-max boost. -/
theorem C3_tier0_single_phase_formula (s : CascadeQState) (hp : s.pending ≠ 0)
    (hq : s.queues ≠ []) :
    DEFAULT_CALC_CONCURRENCY 0 s
      = max (min ⌊(s.max : ℚ)
              * ((s.queues.getD 0 { running := 0, pending := 0 }).pending : ℚ)
              / (s.pending : ℚ)⌋
            ((s.queues.getD 0 { running := 0, pending := 0 }).pending : ℤ)) 1 := by
  have hL : ((s.queues.length : ℚ)) ≠ 0 :=
    Nat.cast_ne_zero.mpr fun h => hq (List.length_eq_zero.mp h)
  simp only [DEFAULT_CALC_CONCURRENCY]
  rw [if_neg hp]
  rw [show ((s.queues.length : ℚ) - ((0 : ℕ) : ℚ)) / (s.queues.length : ℚ) = 1 from by
    rw [Nat.cast_zero, sub_zero, div_self hL]]
  rw [mul_one]

theorem C3_tier0_single_phase_formula_witness :
    DEFAULT_CALC_CONCURRENCY 0 snapC3
      = max (min ⌊(snapC3.max : ℚ)
              * ((snapC3.queues.getD 0 { running := 0, pending := 0 }).pending : ℚ)
              / (snapC3.pending : ℚ)⌋
            ((snapC3.queues.getD 0 { running := 0, pending := 0 }).pending : ℤ)) 1 :=
  C3_tier0_single_phase_formula snapC3 (by with_unfolding_all decide)
    (by with_unfolding_all decide)

/-! ## C10: the default priority -/

/-- A configuration whose decay curve already pays out at age 0
(`decayCurve _ = 11`). -/
def cfgC10 : Cfg :=
  { maxConcurrency := 10
    baseDecay := 1
    decayCurve := fun _ => 11
    calcConcurrency := DEFAULT_CALC_CONCURRENCY
    taskTTL := 60000
    priorityCheckInterval := 10000
    priorityDecayInterval := 100
    thresholds := [0, 10]
    startTime := 0 }

/-- **C10** (counterexample): under `cfgC10` the default base priority
is 11 (last threshold + 1) as claimed, but `#enqueueTask` places the
task by its *effective* priority, which at age 0 is already
`11 - 1 * 11 = 0` — so an `add` with the priority omitted puts the task
into tier 0, not the last tier. -/
theorem C10_default_priority_first_tier :
    getDefaultPriority cfgC10 = 11
    ∧ (sortedThresholds cfgC10).length - 1 = 1
    ∧ findQueueIndex cfgC10
        (calcEffectivePriority cfgC10 0 (newTask cfgC10 0 none (initState cfgC10))) = 0
    ∧ ((addPrepared cfgC10 0 none (initState cfgC10)).queues.map List.length) = [1, 0] := by
  with_unfolding_all decide

/-- Every member of a `≤`-sorted list is at most its last element. -/
theorem sorted_le_getLast (l : List ℚ) (h : l.Sorted (· ≤ ·)) (hne : l ≠ []) (x : ℚ)
    (hx : x ∈ l) : x ≤ l.getLast hne := by
  induction l with
  | nil => exact absurd rfl hne
  | cons a t ih =>
    cases t with
    | nil =>
      have hxa : x = a := by simpa using hx
      subst hxa
      exact le_of_eq rfl
    | cons b t' =>
      rw [List.getLast_cons (by simp)]
      rcases List.mem_cons.mp hx with hxa | hxt
      · subst hxa
        exact List.rel_of_sorted_cons h _ (List.getLast_mem (by simp))
      · exact ih h.of_cons (by simp) hxt

/-- **C10** (amended): when the decay curve pays nothing at age 0
(`baseDecay * decayCurve 0 = 0`, as with the default identity curve), an
`add` with the priority omitted gives the task base priority
last-threshold + 1, which strictly exceeds every threshold, and
`#enqueueTask` places it in the last (catch-all) tier. -/
theorem C10_default_priority_last_tier (cfg : Cfg) (hne : sortedThresholds cfg ≠ [])
    (h0 : cfg.baseDecay * cfg.decayCurve 0 = 0) (now : ℕ) (s : QState) :
    (newTask cfg now none s).basePriority = (sortedThresholds cfg).getLast hne + 1
    ∧ (∀ v ∈ sortedThresholds cfg, v < (newTask cfg now none s).basePriority)
    ∧ findQueueIndex cfg (calcEffectivePriority cfg now (newTask cfg now none s))
        = (sortedThresholds cfg).length - 1 := by
  have hbase : (newTask cfg now none s).basePriority
      = (sortedThresholds cfg).getLast hne + 1 := by
    show (getDefaultPriority cfg) = _
    rw [getDefaultPriority, List.getLast?_eq_getLast _ hne]
    rfl
  have hsorted : (sortedThresholds cfg).Sorted (· ≤ ·) :=
    List.sorted_insertionSort (· ≤ ·) cfg.thresholds
  have hall : ∀ v ∈ sortedThresholds cfg, v < (newTask cfg now none s).basePriority := by
    intro v hv
    rw [hbase]
    exact lt_of_le_of_lt (sorted_le_getLast _ hsorted hne v hv) (lt_add_one _)
  refine ⟨hbase, hall, ?_⟩
  have heff : calcEffectivePriority cfg now (newTask cfg now none s)
      = (newTask cfg now none s).basePriority := by
    rw [calcEffectivePriority]
    rw [show ((newTask cfg now none s).addedAt : ℕ) = now from rfl]
    rw [Nat.sub_self, Nat.zero_div, h0, sub_zero]
  rw [heff, findQueueIndex]
  rw [show (sortedThresholds cfg).findIdx?
      (fun v => decide ((newTask cfg now none s).basePriority ≤ v)) = none from by
    rw [List.findIdx?_eq_none_iff]
    intro x hx
    simpa using not_le.mpr (hall x hx)]

theorem C10_default_priority_last_tier_witness :
    findQueueIndex cfgA (calcEffectivePriority cfgA 7 (newTask cfgA 7 none (initState cfgA)))
      = (sortedThresholds cfgA).length - 1 :=
  (C10_default_priority_last_tier cfgA (by with_unfolding_all decide)
    (by with_unfolding_all decide) 7 (initState cfgA)).2.2

/-! ## C4 and C5: the running counters -/

/-- **C4.** Refuted: on the trace that pauses a fresh queue, adds two
tasks of base priority 6 at time 0 (both land in tier 1) and resumes at
time 600, the dispatcher admits both tasks through *tier 1's* quota
(`dequeueTask` returns tier index 1), but `#executeTask` recomputes the
tier from the now-decayed effective priority (0, i.e. tier 0) and
increments *tier 0's* counter — leaving it at 2 although tier 0's quota
at dispatch time was 1. -/
theorem C4_counter_increments_wrong_tier :
    (∀ fuel, addTask cfgA fuel 0 (some 6) sA0 = .ok (some sA1))
    ∧ (∀ fuel, addTask cfgA fuel 0 (some 6) sA1 = .ok (some sA2))
    ∧ cfgA.calcConcurrency 0 (getStateSnap cfgA sA2) = 1
    ∧ dequeueTask cfgA 600 { sA2 with isPaused := false }
        = some (1, { id := 0, basePriority := 6, addedAt := 0 },
            [{ id := 1, basePriority := 6, addedAt := 0 }])
    ∧ findQueueIndex cfgA
        (calcEffectivePriority cfgA 600 { id := 0, basePriority := 6, addedAt := 0 }) = 0
    ∧ (resumeModel cfgA 4 600 sA2).map (fun s => s.runningCounts) = some [2, 0] := by
  refine ⟨fun fuel => rfl, fun fuel => rfl, ?_, ?_, ?_, ?_⟩
  · with_unfolding_all decide
  · with_unfolding_all decide
  · with_unfolding_all decide
  · with_unfolding_all decide

/-- **C5.** Refuted: resume the one-task trace at time 600 so the task
is Running with tier 0's counter at 1; `clear()` then resets the
counters to zero (`#initRunningCount`) instead of leaving them
untouched, and when the running task later completes, the `finally`
decrement drives the counter to −1. -/
theorem C5_clear_resets_running_counters :
    (resumeModel cfgA 4 600 sA1).map (fun s => s.runningCounts) = some [1, 0]
    ∧ (resumeModel cfgA 4 600 sA1).map
        (fun s => (clearModel cfgA 700 s).runningCounts) = some [0, 0]
    ∧ ((resumeModel cfgA 4 600 sA1).bind
        (fun s => finishTask cfgA 4 0 true 700 (clearModel cfgA 700 s))).map
        (fun s => s.runningCounts) = some [-1, 0] := by
  refine ⟨?_, ?_, ?_⟩
  · with_unfolding_all decide
  · with_unfolding_all decide
  · with_unfolding_all decide

/-! ## C6–C9: cancellation, the status state machine, dispose, expiry -/

/-- The two-step trace pause-then-add reaches `sA1`. -/
theorem reachable_sA1 : Reachable cfgA sA1 :=
  Relation.ReflTransGen.tail
    (Relation.ReflTransGen.tail Relation.ReflTransGen.refl (Step.pause (initState cfgA)))
    (Step.add 1 0 (some 6) sA0 sA1 rfl)

/-- **C6.** `cancel` on a Pending task returns `true`, marks exactly
that task Cancelled, removes exactly it from the queues and emits one
`cancel` event; on a task that is Running or already terminal it
returns `false`, touches no status and emits nothing. -/
theorem C6_cancel_spec (cfg : Cfg) (hne : sortedThresholds cfg ≠ []) (s : QState)
    (hr : Reachable cfg s) (now taskId : ℕ) :
    (s.status taskId = .pending → taskId < s.nextId →
        (cancelModel cfg now taskId s).1 = true
      ∧ (cancelModel cfg now taskId s).2.status taskId = .cancelled
      ∧ (∀ j, j ≠ taskId → (cancelModel cfg now taskId s).2.status j = s.status j)
      ∧ (↑(allQueued (cancelModel cfg now taskId s).2) : Multiset Task)
          = Multiset.filter (fun t => ¬ t.id = taskId) ↑(allQueued s)
      ∧ (cancelModel cfg now taskId s).2.log = s.log ++ [(EvKind.cancel, taskId)])
    ∧ (s.status taskId ≠ .pending →
        (cancelModel cfg now taskId s).1 = false
      ∧ (cancelModel cfg now taskId s).2.status = s.status
      ∧ (cancelModel cfg now taskId s).2.log = s.log
      ∧ (↑(allQueued (cancelModel cfg now taskId s).2) : Multiset Task)
          = ↑(allQueued s)) := by
  have hInv := reachable_inv cfg hne s hr
  have hspec := cancelFrom_spec cfg now taskId s.queues.length 0 s hInv (by omega) (by simp)
  constructor
  · intro hpend hlt
    have hmem := hInv.p_queued taskId hlt hpend
    obtain ⟨h1, h2, h3, h4, h5, _⟩ := hspec.1 hmem
    exact ⟨h1, h2, h3, h4, h5⟩
  · intro hnp
    have hnmem : taskId ∉ ((allQueued s).map Task.id) := by
      intro hm
      obtain ⟨u, hu, hui⟩ := List.mem_map.mp hm
      have := (hInv.q_pending u hu).1
      rw [hui] at this
      exact hnp this
    obtain ⟨h1, h2, h3, h4, _⟩ := hspec.2 hnmem
    exact ⟨h1, h2, h3, h4⟩

theorem C6_cancel_spec_witness :
    (cancelModel cfgA 5 0 sA1).1 = true
    ∧ (cancelModel cfgA 5 0 sA1).2.status 0 = .cancelled := by
  obtain ⟨h1, h2, _⟩ := (C6_cancel_spec cfgA (by with_unfolding_all decide) sA1
      reachable_sA1 5 0).1 (by with_unfolding_all decide) (by with_unfolding_all decide)
  exact ⟨h1, h2⟩

/-- **C7.** Along every step out of a reachable state, every task's
status moves only along the diagram Pending→Running→Success/Failed or
Pending→Cancelled (or stays put). -/
theorem C7_status_transitions (cfg : Cfg) (hne : sortedThresholds cfg ≠ [])
    (s s' : QState) (hr : Reachable cfg s) (hstep : Step cfg s s') (j : ℕ) :
    statusOK (s.status j) (s'.status j) :=
  (step_inv cfg hne s s' (reachable_inv cfg hne s hr) hstep).2 j

theorem C7_status_transitions_witness : statusOK (sA0.status 0) (sA1.status 0) :=
  C7_status_transitions cfgA (by with_unfolding_all decide) sA0 sA1
    (Relation.ReflTransGen.tail Relation.ReflTransGen.refl (Step.pause (initState cfgA)))
    (Step.add 1 0 (some 6) sA0 sA1 rfl) 0

/-- Two states agreeing on every field are equal. -/
theorem QState_eq_of_fields {a b : QState}
    (h1 : a.queues = b.queues) (h2 : a.runningCounts = b.runningCounts)
    (h3 : a.isPaused = b.isPaused) (h4 : a.isDisposed = b.isDisposed)
    (h5 : a.timerActive = b.timerActive) (h6 : a.lastPriorityCheck = b.lastPriorityCheck)
    (h7 : a.nextId = b.nextId) (h8 : a.status = b.status)
    (h9 : a.runningIndex = b.runningIndex) (h10 : a.log = b.log) : a = b := by
  cases a
  cases b
  simp_all

/-- **C8.** After `dispose()`: the disposed flag is set and the cleanup
timer stopped (so no further expiry sweep fires), every allocated
Pending task is Cancelled, every subsequent `add` throws, and a second
`dispose` leaves the state unchanged. -/
theorem C8_dispose_spec (cfg : Cfg) (hne : sortedThresholds cfg ≠ []) (s : QState)
    (hr : Reachable cfg s) (now : ℕ) :
    (disposeModel cfg now s).isDisposed = true
    ∧ (disposeModel cfg now s).timerActive = false
    ∧ (∀ j, j < s.nextId → s.status j = .pending →
        (disposeModel cfg now s).status j = .cancelled)
    ∧ (∀ fuel now₂ prio, addTask cfg fuel now₂ prio (disposeModel cfg now s) = .error ())
    ∧ (∀ now₂, disposeModel cfg now₂ (disposeModel cfg now s) = disposeModel cfg now s) := by
  have hInv := reachable_inv cfg hne s hr
  have hpre : Inv cfg { s with isDisposed := true, timerActive := false } :=
    inv_transport cfg s _ hInv rfl rfl rfl rfl rfl rfl
  obtain ⟨hstat, hemp, _⟩ := clearModel_spec cfg now _ hpre
  have hdq : (disposeModel cfg now s).queues = s.queues.map fun _ => ([] : List Task) := rfl
  refine ⟨rfl, rfl, ?_, ?_, ?_⟩
  · intro j hlt hpend
    have hmem : j ∈ (allQueued { s with isDisposed := true, timerActive := false }).map Task.id :=
      hpre.p_queued j hlt hpend
    show (clearModel cfg now { s with isDisposed := true, timerActive := false }).status j = _
    rw [hstat j, if_pos hmem]
  · intro fuel now₂ prio
    rw [addTask, if_pos (show (disposeModel cfg now s).isDisposed = true from rfl)]
  · intro now₂
    have hflat : ∀ now₃ : ℕ,
        ((disposeModel cfg now s).queues.map (drainAll cfg now₃)).flatten = [] := by
      intro now₃
      rw [hdq, List.map_map]
      rw [show (drainAll cfg now₃ ∘ fun _ => ([] : List Task)) = fun _ => ([] : List Task)
        from rfl]
      simp
    apply QState_eq_of_fields
    · show (disposeModel cfg now s).queues.map (fun _ => []) = (disposeModel cfg now s).queues
      rw [hdq, List.map_map]
      rfl
    · rfl
    · rfl
    · rfl
    · rfl
    · rfl
    · rfl
    · show setStatusMany (((disposeModel cfg now s).queues.map
          (drainAll cfg now₂)).flatten.map Task.id) .cancelled
          (disposeModel cfg now s).status = (disposeModel cfg now s).status
      rw [hflat now₂]
      funext j
      rw [setStatusMany]
      rfl
    · rfl
    · show (disposeModel cfg now s).log
          ++ ((disposeModel cfg now s).queues.map (drainAll cfg now₂)).flatten.map
            (fun t => (EvKind.cancel, t.id))
          = (disposeModel cfg now s).log
      rw [hflat now₂]
      simp

theorem C8_dispose_spec_witness :
    (disposeModel cfgA 5 sA1).timerActive = false
    ∧ (disposeModel cfgA 5 sA1).status 0 = .cancelled
    ∧ addTask cfgA 1 6 none (disposeModel cfgA 5 sA1) = .error () := by
  obtain ⟨_, h2, h3, h4, _⟩ := C8_dispose_spec cfgA (by with_unfolding_all decide) sA1
    reachable_sA1 5
  exact ⟨h2, h3 0 (by with_unfolding_all decide) (by with_unfolding_all decide), h4 1 6 none⟩

/-- **C9.** At an expiry-sweep tick: the queues retain exactly the
tasks with `now - addedAt < taskTTL`; a task's status becomes Cancelled
exactly when it already was, or it sat in a queue and its wait reached
the TTL; the sweep appends to the event log exactly one `cancel` event
per expired queued task — the emitted list's tasks are, as a multiset,
precisely the queued tasks whose wait reached the TTL, so retained and
Running tasks get no event; and a Running task is never touched by the
sweep. -/
theorem C9_expiry_sweep (cfg : Cfg) (hne : sortedThresholds cfg ≠ []) (s : QState)
    (hr : Reachable cfg s) (now : ℕ) :
    (↑(allQueued (sweepModel cfg now s)) : Multiset Task)
        = Multiset.filter (fun t => now - t.addedAt < cfg.taskTTL) ↑(allQueued s)
    ∧ (∀ j, (sweepModel cfg now s).status j = .cancelled ↔
        (s.status j = .cancelled
          ∨ ∃ u ∈ allQueued s, u.id = j ∧ cfg.taskTTL ≤ now - u.addedAt))
    ∧ (∃ expired : List Task,
        (sweepModel cfg now s).log
            = s.log ++ expired.map (fun t => (EvKind.cancel, t.id))
        ∧ (↑expired : Multiset Task)
            = Multiset.filter (fun t => cfg.taskTTL ≤ now - t.addedAt) ↑(allQueued s))
    ∧ (∀ j, s.status j = .running → (sweepModel cfg now s).status j = .running) := by
  have hInv := reachable_inv cfg hne s hr
  refine ⟨sweep_kept_coe cfg now s, ?_, ?_, ?_⟩
  · intro j
    rw [sweepModel_status cfg now s hInv j]
    split
    · rename_i hex
      exact ⟨fun _ => Or.inr hex, fun _ => rfl⟩
    · rename_i hnex
      constructor
      · intro h
        exact Or.inl h
      · intro h
        rcases h with h | h
        · exact h
        · exact absurd h hnex
  · refine ⟨(s.queues.map fun q => (sweepSplit cfg now (drainAll cfg now q)).2).flatten,
      rfl, ?_⟩
    rw [sweep_expired_coe cfg now s]
    exact Multiset.filter_congr fun t _ => by omega
  · intro j hrun
    rw [sweepModel_status cfg now s hInv j]
    rw [if_neg (show ¬ ∃ u ∈ allQueued s, u.id = j ∧ cfg.taskTTL ≤ now - u.addedAt from by
      rintro ⟨u, hu, hui, _⟩
      have := (hInv.q_pending u hu).1
      rw [hui, hrun] at this
      exact absurd this (by simp))]
    exact hrun

theorem C9_expiry_sweep_witness :
    (↑(allQueued (sweepModel cfgA 5 sA1)) : Multiset Task)
      = Multiset.filter (fun t => 5 - t.addedAt < cfgA.taskTTL) ↑(allQueued sA1) :=
  (C9_expiry_sweep cfgA (by with_unfolding_all decide) sA1 reachable_sA1 5).1

end CascadeQ
